import Mathlib

/-!
# Tiny-MoA: verification of spec claims against a shallow embedding

This file embeds the parts of the Tiny-MoA orchestrator that the spec's
testable claims talk about:

* `src/translation/pipeline.py` (`TranslationPipeline.from_english`),
* `src/tools/executor.py` (`execute_command`, `ToolExecutor.execute`),
* `src/tiny_moa/orchestrator.py` (`TinyMoA._handle_tool_call` argument
  acquisition, semantic-error detection and retry phase,
  `TinyMoA._infer_tool_from_keywords`),
* `src/tiny_moa/brain.py` (`Brain.route`, `Brain.decompose_query`),
* `src/tiny_moa/cowork/parallel_runner.py` (`ParallelRunner.run_tasks`).

External collaborators (the LLM backends, the Google translator, NLTK's
POS tagger, the subprocess layer, tool HTTP back-ends) are opaque in the
source as well; they enter the embedding as explicit parameters, so every
theorem quantifies over all of their behaviours.

Python string primitives (`in`, `lower`, `strip`, `split`, `replace`,
`startswith`, slicing, `str.title`) are embedded as executable functions on
`List Char` / `String`.  `lower` is embedded as the ASCII case map, which
agrees with Python's `str.lower` on every character class the embedded
keyword tables use (ASCII letters, digits, punctuation, Hangul).
-/

/-! ## Python string primitives -/

/-- Python whitespace class `\s` (ASCII part, which is what the embedded
regexes and `strip()` calls are exercised on). -/
def isPySpace (c : Char) : Bool :=
  c = ' ' || c = '\t' || c = '\n' || c = '\r' || c = '\x0b' || c = '\x0c'

/-- `pat` is a prefix of `l` (Python `startswith` at a position). -/
def isPrefixL : List Char → List Char → Bool
  | [], _ => true
  | _ :: _, [] => false
  | a :: as, c :: cs => a = c && isPrefixL as cs

/-- `pat` occurs as a contiguous subsequence of `l` (Python `pat in l`). -/
def containsSeq (pat : List Char) : List Char → Bool
  | [] => pat.isEmpty
  | c :: cs => isPrefixL pat (c :: cs) || containsSeq pat cs

/-- Python `sub in s` (substring containment). -/
def pyContains (s sub : String) : Bool :=
  containsSeq sub.toList s.toList

/-- Python `s.startswith(pre)`. -/
def pyStartsWith (s pre : String) : Bool :=
  isPrefixL pre.toList s.toList

/-- Python `s.lower()` (ASCII case map; non-ASCII characters, in particular
Hangul and Han, are fixed points exactly as in the source's inputs). -/
def pyLower (s : String) : String :=
  ⟨s.toList.map Char.toLower⟩

/-- Strip characters satisfying `p` from both ends of a list. -/
def stripWhile (p : Char → Bool) (l : List Char) : List Char :=
  ((l.dropWhile p).reverse.dropWhile p).reverse

/-- Python `s.strip()` (no argument: whitespace). -/
def pyStrip (s : String) : String :=
  ⟨stripWhile isPySpace s.toList⟩

/-- Python `s.strip(chars)`: strip any of the characters of `chars` from
both ends. -/
def pyStripChars (s chars : String) : String :=
  ⟨stripWhile (fun c => chars.toList.contains c) s.toList⟩

/-- Python `s[:n]` for a nonnegative `n`. -/
def pyTake (s : String) (n : Nat) : String :=
  ⟨s.toList.take n⟩

/-- One pass of Python `s.replace(pat, rep, 1)`: replace the leftmost
occurrence of `pat` (when `pat` is non-empty). -/
def replaceOnceL (pat rep : List Char) : List Char → List Char
  | [] => []
  | c :: cs =>
    if !pat.isEmpty && isPrefixL pat (c :: cs) then
      rep ++ (c :: cs).drop pat.length
    else
      c :: replaceOnceL pat rep cs

/-- Python `s.replace(pat, rep, 1)`. -/
def pyReplaceOnce (s pat rep : String) : String :=
  ⟨replaceOnceL pat.toList rep.toList s.toList⟩

/-- Fuelled helper for Python `s.replace(pat, rep)`: replace all
non-overlapping occurrences, left to right. -/
def replaceAllL (pat rep : List Char) : Nat → List Char → List Char
  | _, [] => []
  | 0, l => l
  | fuel + 1, c :: cs =>
    if !pat.isEmpty && isPrefixL pat (c :: cs) then
      rep ++ replaceAllL pat rep fuel ((c :: cs).drop pat.length)
    else
      c :: replaceAllL pat rep fuel cs

/-- Python `s.replace(pat, rep)` (all occurrences). -/
def pyReplaceAll (s pat rep : String) : String :=
  ⟨replaceAllL pat.toList rep.toList s.toList.length s.toList⟩

/-- Python `s.split()` (split on whitespace runs, dropping empties);
helper accumulating the current word in reverse. -/
def splitWsAux : List Char → List Char → List (List Char)
  | [], cur => if cur = [] then [] else [cur.reverse]
  | c :: cs, cur =>
    if isPySpace c then
      if cur = [] then splitWsAux cs [] else cur.reverse :: splitWsAux cs []
    else
      splitWsAux cs (c :: cur)

/-- Python `len(s.split())`. -/
def pySplitWsCount (s : String) : Nat :=
  (splitWsAux s.toList []).length

/-- Python `s.title()` restricted to ASCII letters: the first letter of each
alphabetic run is uppercased, the rest lowercased; uncased characters (for
example Hangul) pass through, as in CPython. -/
def pyTitleAux : List Char → Bool → List Char
  | [], _ => []
  | c :: cs, prevCased =>
    if c.isAlpha then
      (if prevCased then c.toLower else c.toUpper) :: pyTitleAux cs true
    else
      c :: pyTitleAux cs false

/-- Python `s.title()`. -/
def pyTitle (s : String) : String :=
  ⟨pyTitleAux s.toList false⟩

/-! ## JSON-like values and dictionaries

Tool calls, tool results and the router's decision are Python dicts.  They
are embedded as association lists of `String × Val`, with first-key-wins
lookup (Python dicts have unique keys; the embedding's writers preserve
that). -/

inductive Val where
  | s (x : String)
  | b (x : Bool)
  | i (x : Int)
  | vlist (xs : List Val)
  | vdict (xs : List (String × Val))
  | null

abbrev Dict := List (String × Val)

/-- Python `d.get(k)` / `d[k]`. -/
def getVal : Dict → String → Option Val
  | [], _ => none
  | (k', v) :: rest, k => if k' = k then some v else getVal rest k

/-- Python `d.get(k, default)` for the string-valued fields the
orchestrator reads; a non-string value falls back to the default exactly
like a failed `== "..."` comparison does in the source. -/
def getStr (d : Dict) (k : String) (dflt : String) : String :=
  match getVal d k with
  | some (.s x) => x
  | _ => dflt

/-- Python `k in d` (key membership). -/
def hasKey (d : Dict) (k : String) : Bool :=
  (getVal d k).isSome

/-- Python `d[k] = v`: overwrite in place, or append a new key at the end. -/
def setVal : Dict → String → Val → Dict
  | [], k, v => [(k, v)]
  | (k', v') :: rest, k, v =>
    if k' = k then (k, v) :: rest else (k', v') :: setVal rest k v

/-! ## Translation pipeline (`src/translation/pipeline.py`) -/

/-- `TranslationContext` from `pipeline.py`. -/
structure TranslationContext where
  original_text : String
  original_lang : String
  english_text : String
  is_translated : Bool

/-- Outcome of one call into the external translator backend: either the
translated text, or an exception (the source catches every exception). -/
inductive TransOutcome where
  | ok (text : String)
  | exn

/-- Leftmost occurrence split: `splitAtSeq pat l = some (a, b)` iff
`l = a ++ pat ++ b` with `a` minimal. -/
def splitAtSeq (pat : List Char) : List Char → Option (List Char × List Char)
  | [] => none
  | c :: cs =>
    if isPrefixL pat (c :: cs) then
      some ([], (c :: cs).drop pat.length)
    else
      (splitAtSeq pat cs).map (fun ab => (c :: ab.1, ab.2))

/-- The three-backtick fence of the code-block regex. -/
def fenceL : List Char := "\x60\x60\x60".toList

/-- Fuelled helper for `re.findall(r'\x60\x60\x60[\s\S]*?\x60\x60\x60', s)`:
repeatedly take the leftmost fence, then the next fence (lazy middle), emit
the fenced block, continue after it. -/
def findBlocksAux : Nat → List Char → List (List Char)
  | 0, _ => []
  | fuel + 1, l =>
    match splitAtSeq fenceL l with
    | none => []
    | some (_, rest1) =>
      match splitAtSeq fenceL rest1 with
      | none => []
      | some (mid, rest2) => (fenceL ++ mid ++ fenceL) :: findBlocksAux fuel rest2

/-- `re.findall(code_block_pattern, english_response)` from
`TranslationPipeline.from_english`. -/
def findCodeBlocks (s : String) : List String :=
  (findBlocksAux s.toList.length s.toList).map (fun l => ⟨l⟩)

/-- The placeholder `__CODE_BLOCK_{i}__`. -/
def codeBlockPlaceholder (i : Nat) : String :=
  "__CODE_BLOCK_" ++ toString i ++ "__"

/-- The placeholder-substitution loop of `from_english`: replace each found
block (first occurrence) by its placeholder, collecting
`(placeholder, block)` pairs in order. -/
def substBlocks : List String → Nat → String → String × List (String × String)
  | [], _, text => (text, [])
  | b :: rest, i, text =>
    let placeholder := codeBlockPlaceholder i
    let step := substBlocks rest (i + 1) (pyReplaceOnce text b placeholder)
    (step.1, (placeholder, b) :: step.2)

/-- The code-block restoration loop of `from_english`. -/
def restoreBlocks (pairs : List (String × String)) (text : String) : String :=
  pairs.foldl (fun acc pb => pyReplaceAll acc pb.1 pb.2) text

/-- `TranslationPipeline.from_english` from `pipeline.py`, with the external
translator's behaviour on the placeholder-substituted text passed in as
`tr` (the source catches any exception it raises and returns the input). -/
def from_english (english_response : String) (context : TranslationContext)
    (tr : TransOutcome) : String :=
  if context.is_translated = false || context.original_lang = "en" then
    english_response
  else if english_response = "" || pyStrip english_response = "" then
    english_response
  else
    let code_blocks := findCodeBlocks english_response
    let sub := substBlocks code_blocks 0 english_response
    let text_to_translate := sub.1
    let placeholders := sub.2
    if pyStrip text_to_translate = "" then
      restoreBlocks placeholders text_to_translate
    else
      match tr with
      | .exn => english_response
      | .ok translated => restoreBlocks placeholders translated

/-! ### C10: `from_english` is the identity on untranslated contexts -/

/-- C10: for every response string and every `TranslationContext` whose
`is_translated` flag is false or whose `original_lang` is `"en"`,
`TranslationPipeline.from_english` returns the response unchanged, for
every behaviour of the translator. -/
theorem from_english_identity_on_untranslated
    (resp : String) (ctx : TranslationContext) (tr : TransOutcome)
    (h : ctx.is_translated = false ∨ ctx.original_lang = "en") :
    from_english resp ctx tr = resp := by
  unfold from_english
  rcases h with h | h <;> simp [h]

/-- Witness for C10 at a concrete input. -/
theorem from_english_identity_on_untranslated_witness :
    from_english "hello ```code```" ⟨"hi", "en", "hi", false⟩ (.ok "bonjour")
      = "hello ```code```" :=
  from_english_identity_on_untranslated _ _ _ (Or.inl rfl)

/-! ### Substring and replacement lemmas -/

theorem isPrefixL_append_self (p rest : List Char) :
    isPrefixL p (p ++ rest) = true := by
  induction p with
  | nil => rfl
  | cons a as ih => simp [isPrefixL, ih]

theorem containsSeq_cons (pat : List Char) (c : Char) (cs : List Char)
    (h : containsSeq pat cs = true) : containsSeq pat (c :: cs) = true := by
  simp [containsSeq, h]

theorem containsSeq_of_isPrefixL (pat l : List Char)
    (h : isPrefixL pat l = true) : containsSeq pat l = true := by
  cases l with
  | nil =>
    cases pat with
    | nil => rfl
    | cons a as => simp [isPrefixL] at h
  | cons c cs => simp [containsSeq, h]

theorem containsSeq_append_left (pat a b : List Char)
    (h : containsSeq pat b = true) : containsSeq pat (a ++ b) = true := by
  induction a with
  | nil => simpa using h
  | cons c cs ih => exact containsSeq_cons _ _ _ ih

theorem containsSeq_of_middle (pat a b : List Char) :
    containsSeq pat (a ++ (pat ++ b)) = true :=
  containsSeq_append_left _ _ _
    (containsSeq_of_isPrefixL _ _ (isPrefixL_append_self _ _))

theorem eq_append_drop_of_isPrefixL :
    ∀ (pat l : List Char), isPrefixL pat l = true → l = pat ++ l.drop pat.length := by
  intro pat
  induction pat with
  | nil => intro l _; simp
  | cons a as ih =>
    intro l h
    cases l with
    | nil => simp [isPrefixL] at h
    | cons c cs =>
      simp only [isPrefixL, Bool.and_eq_true, decide_eq_true_eq] at h
      obtain ⟨h1, h2⟩ := h
      subst h1
      simpa using ih cs h2

theorem splitAtSeq_eq (pat : List Char) :
    ∀ l a b, splitAtSeq pat l = some (a, b) → l = a ++ pat ++ b := by
  intro l
  induction l with
  | nil => intro a b h; simp [splitAtSeq] at h
  | cons c cs ih =>
    intro a b h
    by_cases hp : isPrefixL pat (c :: cs) = true
    · unfold splitAtSeq at h
      rw [if_pos hp] at h
      injection h with h2
      injection h2 with ha hb
      subst ha; subst hb
      simpa using eq_append_drop_of_isPrefixL pat (c :: cs) hp
    · unfold splitAtSeq at h
      rw [if_neg hp] at h
      obtain ⟨⟨p, q⟩, hpq, heq⟩ := Option.map_eq_some'.mp h
      simp only [Prod.mk.injEq] at heq
      obtain ⟨ha, hb⟩ := heq
      subst ha; subst hb
      have := ih p q hpq
      simp [this, List.append_assoc]

theorem findBlocksAux_shape (fuel : Nat) :
    ∀ l B, B ∈ findBlocksAux fuel l → ∃ mid, B = fenceL ++ mid ++ fenceL := by
  induction fuel with
  | zero => intro l B h; simp [findBlocksAux] at h
  | succ n ih =>
    intro l B h
    unfold findBlocksAux at h
    cases h1 : splitAtSeq fenceL l with
    | none => rw [h1] at h; simp at h
    | some pr1 =>
      obtain ⟨pre, rest1⟩ := pr1
      rw [h1] at h
      dsimp only at h
      cases h2 : splitAtSeq fenceL rest1 with
      | none => rw [h2] at h; simp at h
      | some pr2 =>
        obtain ⟨mid, rest2⟩ := pr2
        rw [h2] at h
        dsimp only at h
        simp only [List.mem_cons] at h
        rcases h with h | h
        · exact ⟨mid, h⟩
        · exact ih rest2 B h

theorem findBlocksAux_mem (fuel : Nat) :
    ∀ l B, B ∈ findBlocksAux fuel l → containsSeq B l = true := by
  induction fuel with
  | zero => intro l B h; simp [findBlocksAux] at h
  | succ n ih =>
    intro l B h
    unfold findBlocksAux at h
    cases h1 : splitAtSeq fenceL l with
    | none => rw [h1] at h; simp at h
    | some pr1 =>
      obtain ⟨pre, rest1⟩ := pr1
      rw [h1] at h
      dsimp only at h
      cases h2 : splitAtSeq fenceL rest1 with
      | none => rw [h2] at h; simp at h
      | some pr2 =>
        obtain ⟨mid, rest2⟩ := pr2
        rw [h2] at h
        dsimp only at h
        simp only [List.mem_cons] at h
        have hl := splitAtSeq_eq fenceL l pre rest1 h1
        have hr := splitAtSeq_eq fenceL rest1 mid rest2 h2
        have hl2 : l = pre ++ ((fenceL ++ mid ++ fenceL) ++ rest2) := by
          rw [hl, hr]; simp [List.append_assoc]
        rcases h with h | h
        · subst h
          rw [hl2]
          exact containsSeq_of_middle _ pre rest2
        · have hc := ih rest2 B h
          rw [hl2]
          exact containsSeq_append_left _ _ _
            (containsSeq_append_left _ _ _ hc)

theorem replaceOnceL_contains_rep (pat rep : List Char)
    (hne : pat.isEmpty = false) :
    ∀ l, containsSeq pat l = true →
      containsSeq rep (replaceOnceL pat rep l) = true := by
  intro l
  induction l with
  | nil =>
    intro h
    cases pat with
    | nil => simp [List.isEmpty] at hne
    | cons a as => simp [containsSeq, List.isEmpty] at h
  | cons c cs ih =>
    intro h
    by_cases hp : isPrefixL pat (c :: cs) = true
    · unfold replaceOnceL
      rw [if_pos (by simp [hne, hp])]
      exact containsSeq_of_isPrefixL _ _ (isPrefixL_append_self _ _)
    · have h' : containsSeq pat cs = true := by
        have := h
        unfold containsSeq at this
        simpa [hp] using this
      unfold replaceOnceL
      rw [if_neg (by simp [hp])]
      exact containsSeq_cons _ _ _ (ih h')

theorem replaceAllL_contains_rep (pat rep : List Char)
    (hne : pat.isEmpty = false) :
    ∀ fuel l, l.length ≤ fuel → containsSeq pat l = true →
      containsSeq rep (replaceAllL pat rep fuel l) = true := by
  intro fuel
  induction fuel with
  | zero =>
    intro l hl h
    have : l = [] := List.length_eq_zero.mp (Nat.le_zero.mp hl)
    subst this
    cases pat with
    | nil => simp [List.isEmpty] at hne
    | cons a as => simp [containsSeq, List.isEmpty] at h
  | succ n ih =>
    intro l hl h
    cases l with
    | nil =>
      cases pat with
      | nil => simp [List.isEmpty] at hne
      | cons a as => simp [containsSeq, List.isEmpty] at h
    | cons c cs =>
      by_cases hp : isPrefixL pat (c :: cs) = true
      · unfold replaceAllL
        rw [if_pos (by simp [hne, hp])]
        exact containsSeq_of_isPrefixL _ _ (isPrefixL_append_self _ _)
      · have h' : containsSeq pat cs = true := by
          have := h
          unfold containsSeq at this
          simpa [hp] using this
        have hlen : cs.length ≤ n := Nat.succ_le_succ_iff.mp (by simpa using hl)
        unfold replaceAllL
        rw [if_neg (by simp [hp])]
        exact containsSeq_cons _ _ _ (ih cs hlen h')

theorem findCodeBlocks_mem_contains (s B : String) (h : B ∈ findCodeBlocks s) :
    pyContains s B = true := by
  unfold findCodeBlocks at h
  obtain ⟨l, hl, hB⟩ := List.mem_map.mp h
  have hc := findBlocksAux_mem _ _ _ hl
  have hBl : B.toList = l := by rw [← hB]; rfl
  unfold pyContains
  rw [hBl]
  exact hc

theorem findCodeBlocks_not_isEmpty (s B : String) (h : B ∈ findCodeBlocks s) :
    B.toList.isEmpty = false := by
  unfold findCodeBlocks at h
  obtain ⟨l, hl, hB⟩ := List.mem_map.mp h
  obtain ⟨mid, hmid⟩ := findBlocksAux_shape _ _ _ hl
  have hBl : B.toList = l := by rw [← hB]; rfl
  rw [hBl, hmid]
  rfl

theorem pyReplaceOnce_contains_rep (s pat rep : String)
    (hne : pat.toList.isEmpty = false) (h : pyContains s pat = true) :
    pyContains (pyReplaceOnce s pat rep) rep = true :=
  replaceOnceL_contains_rep pat.toList rep.toList hne s.toList h

theorem pyReplaceAll_contains_rep (s pat rep : String)
    (hne : pat.toList.isEmpty = false) (h : pyContains s pat = true) :
    pyContains (pyReplaceAll s pat rep) rep = true :=
  replaceAllL_contains_rep pat.toList rep.toList hne s.toList.length s.toList
    (Nat.le_refl _) h

/-! ### C7: code-block preservation through `from_english` -/

/-- C7 counterexample: the claim asserts preservation of fenced code blocks
for *every* behaviour of the underlying translator.  The input
`"\x60\x60\x60x\x60\x60\x60"` consists of exactly one fenced block, yet a
translator that answers `"done"` (dropping the `__CODE_BLOCK_0__`
placeholder, which a real translator may well mangle) makes `from_english`
return `"done"`: the block does not occur in the output. -/
theorem from_english_single_block_lost_counterexample :
    findCodeBlocks "\x60\x60\x60x\x60\x60\x60" = ["\x60\x60\x60x\x60\x60\x60"] ∧
    pyContains
      (from_english "\x60\x60\x60x\x60\x60\x60" ⟨"안녕", "ko", "hi", true⟩ (.ok "done"))
      "\x60\x60\x60x\x60\x60\x60" = false := by
  constructor
  · rfl
  · rfl

/-! ## Tool executor (`src/tools/executor.py`) -/

/-- The `dangerous_patterns` blacklist of `execute_command`. -/
def dangerous_patterns : List String :=
  ["rm -rf", "del /s /q", "format", "mkfs",
   "shutdown", "reboot", "halt",
   "dd if=", "> /dev/",
   "chmod 777", "chmod -R",
   "curl | sh", "wget | sh"]

/-- Behaviour of the `subprocess.run` call inside `execute_command`: it
either runs to completion, exceeds the timeout, or raises. -/
inductive SubprocOutcome where
  | ran (stdout stderr : String) (returncode : Int)
  | timedOut
  | raised (msg : String)

/-- `execute_command` from `executor.py`.  The subprocess layer and
`platform.system()` are external and enter as parameters.  The second
component of the result records whether a subprocess was spawned at all
(the source reaches `subprocess.run` exactly on the paths marked `true`). -/
def execute_command (command : String) (timeout : Nat)
    (platformName : String) (sub : SubprocOutcome) : Dict × Bool :=
  let cmd_lower := pyLower command
  match dangerous_patterns.find? (fun pattern => pyContains cmd_lower (pyLower pattern)) with
  | some pattern =>
    ([("error", .s ("Blocked dangerous command pattern: " ++ pattern)),
      ("command", .s command)], false)
  | none =>
    match sub with
    | .ran stdout stderr returncode =>
      ([("command", .s command),
        ("stdout", .s (pyTake stdout 5000)),
        ("stderr", .s (pyTake stderr 1000)),
        ("return_code", .i returncode),
        ("success", .b (returncode = 0)),
        ("platform", .s platformName)], true)
    | .timedOut =>
      ([("error", .s ("Command timed out after " ++ toString timeout ++ "s")),
        ("command", .s command)], true)
    | .raised msg =>
      ([("error", .s msg), ("command", .s command)], true)

/-- Registry of `ToolExecutor.__init__` (insertion order of `self.tools`). -/
def toolRegistryNames : List String :=
  ["get_weather", "search_web", "search_news", "search_wikipedia",
   "read_url", "calculate", "get_current_time", "execute_command"]

/-- Behaviour of the looked-up handler call
`self.tools[tool_name](**arguments)`: it either returns a value or raises
(including a `TypeError` from keyword binding). -/
inductive HandlerOutcome where
  | ret (v : Val)
  | raise (msg : String)

/-- `ToolExecutor.execute` from `executor.py`. -/
def ToolExecutor.execute (tool_name : String) (arguments : Dict)
    (handler : HandlerOutcome) : Dict :=
  if toolRegistryNames.contains tool_name = false then
    [("error", .s ("Unknown tool: " ++ tool_name)),
     ("available_tools", .vlist (toolRegistryNames.map Val.s))]
  else
    match handler with
    | .ret v =>
      [("success", .b true), ("tool", .s tool_name),
       ("arguments", .vdict arguments), ("result", v)]
    | .raise msg =>
      [("success", .b false), ("tool", .s tool_name),
       ("arguments", .vdict arguments), ("error", .s msg)]

/-! ### C4: the blacklist blocks destructive commands without spawning -/

/-- C4: for every command string containing (case-insensitively) one of the
blacklisted destructive patterns, `execute_command` returns an error result
naming the blocked pattern and never spawns a subprocess — for every
platform, timeout and subprocess behaviour. -/
theorem execute_command_blocks_blacklisted
    (command : String) (timeout : Nat) (platformName : String)
    (sub : SubprocOutcome)
    (h : dangerous_patterns.any
      (fun pattern => pyContains (pyLower command) (pyLower pattern)) = true) :
    (execute_command command timeout platformName sub).2 = false ∧
    ∃ pattern ∈ dangerous_patterns,
      pyContains (pyLower command) (pyLower pattern) = true ∧
      (execute_command command timeout platformName sub).1 =
        [("error", .s ("Blocked dangerous command pattern: " ++ pattern)),
         ("command", .s command)] := by
  obtain ⟨pattern, hmem, hpat⟩ := List.any_eq_true.mp h
  have hfind : ∃ q, dangerous_patterns.find?
      (fun p => pyContains (pyLower command) (pyLower p)) = some q := by
    have : (dangerous_patterns.find?
        (fun p => pyContains (pyLower command) (pyLower p))).isSome = true := by
      rw [List.find?_isSome]
      exact ⟨pattern, hmem, hpat⟩
    exact Option.isSome_iff_exists.mp this
  obtain ⟨q, hq⟩ := hfind
  have hqmem : q ∈ dangerous_patterns := List.mem_of_find?_eq_some hq
  have hqpat : pyContains (pyLower command) (pyLower q) = true := by
    simpa using List.find?_some hq
  unfold execute_command
  dsimp only
  rw [hq]
  exact ⟨rfl, q, hqmem, hqpat, rfl⟩

/-- Witness for C4: `"sudo rm -rf /"` contains the pattern `"rm -rf"`; the
call is blocked and no subprocess is spawned. -/
theorem execute_command_blocks_blacklisted_witness :
    (execute_command "sudo rm -rf /" 30 "Linux" (.ran "" "" 0)).2 = false :=
  (execute_command_blocks_blacklisted "sudo rm -rf /" 30 "Linux" (.ran "" "" 0)
    (by decide)).1

/-! ### C6: the shape of `ToolExecutor.execute` results -/

/-- C6 counterexample: for a tool name that is not in the registry,
`ToolExecutor.execute` returns `{"error": ..., "available_tools": ...}` —
a mapping with *no* `success` field at all, contradicting the claim that
every returned value carries a boolean `success`. -/
theorem toolexecutor_execute_unknown_tool_counterexample :
    getVal (ToolExecutor.execute "nonexistent_tool" [] (.ret .null)) "success"
      = none := by
  rfl

/-- C6 (amended): for a registered tool name, `ToolExecutor.execute`
returns a mapping with a boolean `success` field — `true` together with
the handler's returned payload under `result` when the handler returns
normally (even if that payload itself describes an internal error), and
`false` together with an `error` string when the handler raises.  For an
unregistered name it instead returns a mapping holding only an `error`
string and the list of available tools, with no `success` field. -/
theorem toolexecutor_execute_shape
    (tool_name : String) (arguments : Dict) (handler : HandlerOutcome) :
    (toolRegistryNames.contains tool_name = false →
      ToolExecutor.execute tool_name arguments handler =
        [("error", .s ("Unknown tool: " ++ tool_name)),
         ("available_tools", .vlist (toolRegistryNames.map Val.s))]) ∧
    (toolRegistryNames.contains tool_name = true →
      (∀ v, handler = .ret v →
        getVal (ToolExecutor.execute tool_name arguments handler) "success"
            = some (.b true) ∧
        getVal (ToolExecutor.execute tool_name arguments handler) "result"
            = some v) ∧
      (∀ msg, handler = .raise msg →
        getVal (ToolExecutor.execute tool_name arguments handler) "success"
            = some (.b false) ∧
        getVal (ToolExecutor.execute tool_name arguments handler) "error"
            = some (.s msg))) := by
  constructor
  · intro h
    unfold ToolExecutor.execute
    rw [if_pos h]
  · intro h
    have hne : ¬ (toolRegistryNames.contains tool_name = false) := by
      rw [h]; decide
    constructor
    · intro v hv
      subst hv
      unfold ToolExecutor.execute
      rw [if_neg hne]
      exact ⟨rfl, rfl⟩
    · intro msg hmsg
      subst hmsg
      unfold ToolExecutor.execute
      rw [if_neg hne]
      exact ⟨rfl, rfl⟩

/-- Witness for the amended C6 at concrete inputs: a registered tool with a
raising handler yields `success = false` and the error string. -/
theorem toolexecutor_execute_shape_witness :
    getVal (ToolExecutor.execute "get_weather" [("location", .s "Seoul")]
      (.raise "boom")) "success" = some (.b false) :=
  (((toolexecutor_execute_shape "get_weather" [("location", .s "Seoul")]
      (.raise "boom")).2 (by decide)).2 "boom" rfl).1

/-! ## Tool dispatch in the orchestrator (`src/tiny_moa/orchestrator.py`) -/

/-- The view of a `ToolExecutor.execute` result that
`TinyMoA._handle_tool_call` reads: `result.get("success", False)`,
`str(result.get("result", ""))` (the string form of the payload), and
`result.get("error", ...)`. -/
structure ExecResult where
  success : Bool
  payloadStr : String
  error : Option String

/-- The `error_keywords` list of the semantic-error detection block
(`orchestrator.py` lines 274–289). -/
def error_keywords : List String :=
  ["timeout", "timed out", "rate limit", "api error", "access denied",
   "404 not found", "500 internal server error", "traceback"]

/-- The semantic-error detection block of `_handle_tool_call`: if the tool
reported success, scan the lowercased string form of its payload for the
first matching error keyword and, on a hit, flip `success` to `False` and
record an error string.  It runs on the first execution's result, before
the dispatcher formats, returns or retries. -/
def semanticErrorScan (r : ExecResult) : ExecResult :=
  if r.success then
    match error_keywords.find? (fun keyword => pyContains (pyLower r.payloadStr) keyword) with
    | some keyword =>
      { r with success := false,
               error := some ("Tool returned success but contained error keyword: " ++ keyword) }
    | none => r
  else r

/-- Outcome of the `json.loads(corrected_args_str)` call in the retry
block: a parsed dict, or an exception (caught by the surrounding `try`). -/
def ParsedArgs := String → Option Dict

/-- The execution-and-retry phase of `TinyMoA._handle_tool_call`
(`orchestrator.py` lines 255–367), starting after the tool call has been
acquired: execute once, apply semantic-error detection, and on failure run
at most one LLM-repair round gated by the absence of a `retry` key in the
arguments.  External behaviours are parameters: `exec` maps an argument
dict to the executor's result view, `brainReply` is the raw text of the
repair LLM call, `parse` is the `json.loads` outcome.  The first component
of the result lists every argument dict passed to
`self.tool_executor.execute`, in order; the second is the result the
dispatcher proceeds with. -/
def toolExecPhase (tool_name : String) (arguments : Dict)
    (exec : Dict → ExecResult) (brainReply : String) (parse : ParsedArgs) :
    List Dict × ExecResult :=
  let result := semanticErrorScan (exec arguments)
  if result.success then
    ([arguments], result)
  else
    let error := result.error.getD "Unknown error"
    if hasKey arguments "retry" = false then
      let corrected_args_str :=
        pyStrip (pyReplaceAll (pyReplaceAll (pyStrip brainReply) "\x60\x60\x60json" "") "\x60\x60\x60" "")
      if pyStartsWith corrected_args_str "\x7b" then
        match parse corrected_args_str with
        | some parsedDict =>
          let retry_args := setVal parsedDict "retry" (.b true)
          let retry_result := exec retry_args
          if retry_result.success then
            ([arguments, retry_args], retry_result)
          else
            ([arguments, retry_args],
             { retry_result with error := some (retry_result.error.getD error) })
        | none =>
          ([arguments], { success := false, payloadStr := "", error := some error })
      else
        ([arguments], { success := false, payloadStr := "", error := some error })
    else
      ([arguments], { success := false, payloadStr := "", error := some error })

theorem getVal_setVal_same (d : Dict) (k : String) (v : Val) :
    getVal (setVal d k v) k = some v := by
  induction d with
  | nil => simp [setVal, getVal]
  | cons kv rest ih =>
    obtain ⟨k', v'⟩ := kv
    by_cases hk : k' = k
    · subst hk
      simp [setVal, getVal]
    · simp [setVal, getVal, hk, ih]

/-! ### C2: semantic-error reclassification -/

/-- C2 counterexample: the claim lists `404` and `500` among the markers,
but the code scans for `"404 not found"` and `"500 internal server
error"`.  A successful result whose payload string is `"HTTP 404"`
contains the claimed marker `404`, yet the scan leaves `success = true`
and records no error. -/
theorem semantic_scan_bare_404_counterexample :
    (["timeout", "rate limit", "api error", "access denied",
      "404", "500", "traceback"].any
        (fun marker => pyContains (pyLower "HTTP 404") marker) = true) ∧
    semanticErrorScan ⟨true, "HTTP 404", none⟩ = ⟨true, "HTTP 404", none⟩ := by
  constructor
  · decide
  · rfl

/-- C2 (amended): whenever a tool invocation reports `success = true` and
the string form of its payload contains (case-insensitively) one of the
code's markers — `timeout`, `timed out`, `rate limit`, `api error`,
`access denied`, `404 not found`, `500 internal server error`,
`traceback` — the dispatcher reclassifies the result as a failure:
`success` becomes false and an error string naming a matched keyword is
recorded, before the result is formatted, returned or retried.  When no
marker occurs, the result is left unchanged. -/
theorem semantic_scan_reclassifies
    (r : ExecResult)
    (hs : r.success = true) :
    (error_keywords.any (fun keyword => pyContains (pyLower r.payloadStr) keyword) = true →
      (semanticErrorScan r).success = false ∧
      ∃ keyword ∈ error_keywords,
        pyContains (pyLower r.payloadStr) keyword = true ∧
        (semanticErrorScan r).error =
          some ("Tool returned success but contained error keyword: " ++ keyword)) ∧
    (error_keywords.any (fun keyword => pyContains (pyLower r.payloadStr) keyword) = false →
      semanticErrorScan r = r) := by
  constructor
  · intro h
    have hfind : ∃ q, error_keywords.find?
        (fun keyword => pyContains (pyLower r.payloadStr) keyword) = some q := by
      have : (error_keywords.find?
          (fun keyword => pyContains (pyLower r.payloadStr) keyword)).isSome = true := by
        rw [List.find?_isSome]
        obtain ⟨k, hk, hpk⟩ := List.any_eq_true.mp h
        exact ⟨k, hk, hpk⟩
      exact Option.isSome_iff_exists.mp this
    obtain ⟨q, hq⟩ := hfind
    have hqmem : q ∈ error_keywords := List.mem_of_find?_eq_some hq
    have hqpat : pyContains (pyLower r.payloadStr) q = true := by
      simpa using List.find?_some hq
    unfold semanticErrorScan
    rw [if_pos hs, hq]
    exact ⟨rfl, q, hqmem, hqpat, rfl⟩
  · intro h
    have hfind : error_keywords.find?
        (fun keyword => pyContains (pyLower r.payloadStr) keyword) = none := by
      rw [List.find?_eq_none]
      intro x hx
      have := List.any_eq_false.mp h x hx
      simpa using this
    unfold semanticErrorScan
    rw [if_pos hs, hfind]

/-- Witness for the amended C2: a payload containing `timed out` is
reclassified to a failure. -/
theorem semantic_scan_reclassifies_witness :
    (semanticErrorScan ⟨true, "Read timed out.", none⟩).success = false :=
  (((semantic_scan_reclassifies ⟨true, "Read timed out.", none⟩ rfl).1) (by decide)).1

/-! ### C3: at most one repair retry, gated by the `retry` sentinel -/

/-- C3: in one pass of the dispatch phase the tool executor is invoked at
most twice; any second invocation's arguments carry `retry = True`; and if
the original arguments already contain the `retry` key, no retry happens —
for every executor, repair-LLM and JSON-parse behaviour. -/
theorem toolExecPhase_calls_spec (tool_name : String) (arguments : Dict)
    (exec : Dict → ExecResult) (brainReply : String) (parse : ParsedArgs) :
    (toolExecPhase tool_name arguments exec brainReply parse).1 = [arguments] ∨
    (hasKey arguments "retry" = false ∧
     ∃ p, (toolExecPhase tool_name arguments exec brainReply parse).1
        = [arguments, setVal p "retry" (.b true)]) := by
  unfold toolExecPhase
  dsimp only
  split
  · exact Or.inl rfl
  · split
    · rename_i hretry
      split
      · cases hp : parse (pyStrip (pyReplaceAll
            (pyReplaceAll (pyStrip brainReply) "\x60\x60\x60json" "") "\x60\x60\x60" "")) with
        | none => exact Or.inl rfl
        | some p =>
          dsimp only
          split
          · exact Or.inr ⟨hretry, p, rfl⟩
          · exact Or.inr ⟨hretry, p, rfl⟩
      · exact Or.inl rfl
    · exact Or.inl rfl

/-- C3: in one pass of the dispatch phase the tool executor is invoked at
most twice; any second invocation's arguments carry `retry = True`; and if
the original arguments already contain the `retry` key, no retry happens —
for every executor, repair-LLM and JSON-parse behaviour. -/
theorem tool_retry_bound
    (tool_name : String) (arguments : Dict) (exec : Dict → ExecResult)
    (brainReply : String) (parse : ParsedArgs) :
    (toolExecPhase tool_name arguments exec brainReply parse).1.length ≤ 2 ∧
    (∀ d, (toolExecPhase tool_name arguments exec brainReply parse).1 = [arguments, d] →
      getVal d "retry" = some (.b true)) ∧
    (hasKey arguments "retry" = true →
      (toolExecPhase tool_name arguments exec brainReply parse).1 = [arguments]) := by
  have hc := toolExecPhase_calls_spec tool_name arguments exec brainReply parse
  refine ⟨?_, ?_, ?_⟩
  · rcases hc with h | ⟨_, p, h⟩ <;> simp [h]
  · intro d hd
    rcases hc with h | ⟨_, p, h⟩
    · rw [h] at hd
      simp at hd
    · rw [h] at hd
      simp only [List.cons.injEq] at hd
      rw [← hd.2.1]
      exact getVal_setVal_same p "retry" (.b true)
  · intro hr
    rcases hc with h | ⟨hretry, p, h⟩
    · exact h
    · rw [hr] at hretry
      simp at hretry

/-- Witness for C3 at concrete inputs: arguments that already carry the
`retry` key are never retried — a single executor invocation happens even
though the call fails and the repair LLM proposes new JSON arguments. -/
theorem tool_retry_bound_witness :
    (toolExecPhase "execute_command" [("command", .s "uv --version"), ("retry", .b true)]
      (fun _ => ⟨false, "", some "boom"⟩)
      "\x7b\"command\": \"uv --version\"\x7d"
      (fun _ => some [("command", .s "uv --version")])).1 =
    [[("command", .s "uv --version"), ("retry", .b true)]] :=
  (tool_retry_bound "execute_command"
    [("command", .s "uv --version"), ("retry", .b true)]
    (fun _ => ⟨false, "", some "boom"⟩)
    "\x7b\"command\": \"uv --version\"\x7d"
    (fun _ => some [("command", .s "uv --version")])).2.2 (by decide)

/-! ## Argument acquisition (`TinyMoA._handle_tool_call` lines 177–248 and
`TinyMoA._infer_tool_from_keywords`) -/

/-- Character class of the regex `[\d\s+\-*/().]+` used to pull an
arithmetic expression out of the text. -/
def isCalcChar (c : Char) : Bool :=
  c.isDigit || isPySpace c || c = '+' || c = '-' || c = '*' || c = '/' ||
  c = '(' || c = ')' || c = '.'

/-- `re.search(r'[\d\s+\-*/().]+', s)`: the first maximal run of
calculator characters, if any. -/
def firstCalcRun : List Char → Option (List Char)
  | [] => none
  | c :: cs =>
    if isCalcChar c then some (c :: cs.takeWhile isCalcChar)
    else firstCalcRun cs

/-- `TinyMoA._infer_tool_from_keywords` from `orchestrator.py`
(lines 369–446): keyword-based tool-call inference without any model. -/
def infer_tool_from_keywords (user_input tool_hint : String) : Dict :=
  let ul := pyLower user_input
  if tool_hint = "get_weather" then
    let cities := ["서울", "seoul", "도쿄", "tokyo", "뉴욕", "new york", "런던", "london",
                   "부산", "busan", "인천", "대구", "대전", "광주"]
    let location := match cities.find? (fun city => pyContains ul city) with
                    | some city => pyTitle city
                    | none => "Seoul"
    [("name", .s "get_weather"), ("arguments", .vdict [("location", .s location)])]
  else if tool_hint = "search_web" then
    let query := match ["검색해줘", "찾아봐", "알려줘", "뭐야", "search for", "search"].find?
                        (fun pre => pyContains ul pre) with
                 | some pre => pyStrip (pyReplaceAll user_input pre "")
                 | none => user_input
    [("name", .s "search_web"), ("arguments", .vdict [("query", .s query)])]
  else if tool_hint = "get_current_time" then
    let timezone :=
      if pyContains ul "뉴욕" || pyContains ul "new york" then "America/New_York"
      else if pyContains ul "도쿄" || pyContains ul "tokyo" then "Asia/Tokyo"
      else if pyContains ul "런던" || pyContains ul "london" then "Europe/London"
      else "Asia/Seoul"
    [("name", .s "get_current_time"), ("arguments", .vdict [("timezone", .s timezone)])]
  else if tool_hint = "calculate" then
    let expression := match firstCalcRun user_input.toList with
                      | some run => pyStrip ⟨run⟩
                      | none => "0"
    [("name", .s "calculate"), ("arguments", .vdict [("expression", .s expression)])]
  else
    if ["weather", "날씨", "기온", "온도", "temperature"].any (fun kw => pyContains ul kw) then
      let cities := ["seoul", "서울", "tokyo", "도쿄", "new york", "뉴욕", "london", "런던",
                     "busan", "부산", "incheon", "인천", "osaka", "오사카"]
      let location := match cities.find? (fun city => pyContains ul city) with
                      | some city =>
                        pyReplaceAll (pyReplaceAll (pyReplaceAll (pyReplaceAll (pyReplaceAll
                          (pyTitle city) "서울" "Seoul") "도쿄" "Tokyo") "뉴욕" "New York")
                          "런던" "London") "부산" "Busan"
                      | none => "Seoul"
      [("name", .s "get_weather"), ("arguments", .vdict [("location", .s location)])]
    else if (["실행", "run", "check", "verify", "version", "버전", "확인", "ls", "dir", "command"].any
              (fun kw => pyContains ul kw)) && !(pyContains ul "코드") then
      let cmd :=
        if pyContains ul "uv" then "uv --version"
        else if pyContains ul "python" then "python --version"
        else if pyContains ul "dir" || pyContains ul "목록" then "dir"
        else "ver"
      [("name", .s "execute_command"), ("arguments", .vdict [("command", .s cmd)])]
    else if (["search", "find", "검색", "찾아", "알려줘"].any (fun kw => pyContains ul kw)) ||
            pyContains ul "uv" then
      [("name", .s "search_web"), ("arguments", .vdict [("query", .s user_input)])]
    else if ["time", "시간", "몇시", "what time", "current time"].any (fun kw => pyContains ul kw) then
      [("name", .s "get_current_time"), ("arguments", .vdict [("timezone", .s "Asia/Seoul")])]
    else
      [("error", .s "Could not infer tool from keywords")]

/-- The `bad_starters` instruction verbs of the `execute_command` argHint
defence (`orchestrator.py` line 191). -/
def bad_starters : List String :=
  ["Check", "Verify", "Confirm", "Please", "Ensure", "See", "Test", "Determine"]

/-- The character class of `re.search(r'[가-힣]', arg_hint)`: precomposed
Hangul syllables U+AC00–U+D7A3. -/
def isHangulSyllable (c : Char) : Bool :=
  0xAC00 ≤ c.toNat && c.toNat ≤ 0xD7A3

/-- The `is_valid_cmd` defence of `_handle_tool_call` for an
`execute_command` argHint: invalid iff it starts with an instruction verb
and has more than two words, or contains a Hangul syllable. -/
def execCmdArgHintValid (arg_hint : String) : Bool :=
  !((bad_starters.any (fun s => pyStartsWith (pyStrip arg_hint) s) &&
     decide (2 < pySplitWsCount arg_hint)) ||
    arg_hint.toList.any isHangulSyllable)

/-- Python `d.pop(k)`'s removal effect on the dict. -/
def popKey : Dict → String → Dict
  | [], _ => []
  | (k', v) :: rest, k => if k' = k then rest else (k', v) :: popKey rest k

/-- The `[Critical Fix]` argument-validation block of `_handle_tool_call`
(lines 236–248): rename `location → query` for the search tools and
`query → location` for `get_weather`. -/
def fixToolCallArgs (tc : Dict) : Dict :=
  if hasKey tc "name" && hasKey tc "arguments" then
    match getVal tc "name", getVal tc "arguments" with
    | some (.s t_name), some (.vdict t_args) =>
      let t_args1 :=
        if (t_name = "search_web" ∨ t_name = "search_news") ∧
            hasKey t_args "location" = true ∧ hasKey t_args "query" = false then
          match getVal t_args "location" with
          | some v => setVal (popKey t_args "location") "query" v
          | none => t_args
        else t_args
      let t_args2 :=
        if t_name = "get_weather" ∧ hasKey t_args1 "query" = true ∧
            hasKey t_args1 "location" = false then
          match getVal t_args1 "query" with
          | some v => setVal (popKey t_args1 "query") "location" v
          | none => t_args1
        else t_args1
      setVal tc "arguments" (.vdict t_args2)
    | _, _ => tc
  else tc

/-- The tool-call acquisition phase of `_handle_tool_call` (lines 177–248):
prefer the Brain's argHint (with the `execute_command` defence), otherwise
fall back to the Falcon tool-caller when it is loaded (`falcon = some g`,
with `g` its generated call) and to keyword inference when it is not
(`falcon = none`, i.e. `tool_caller._falcon` is `None`); finally apply the
argument-validation renames. -/
def acquire_tool_call (user_input tool_hint arg_hint : String)
    (falcon : Option Dict) : Dict :=
  let tool_call : Dict :=
    if arg_hint ≠ "" ∧ tool_hint ≠ "" then
      let arguments : Dict :=
        if tool_hint ∈ ["search_web", "search_news", "search_wikipedia"] then
          [("query", .s arg_hint)]
        else if tool_hint = "execute_command" then
          if execCmdArgHintValid arg_hint then [("command", .s arg_hint)] else []
        else if tool_hint = "get_weather" then [("location", .s arg_hint)]
        else if tool_hint = "get_current_time" then [("timezone", .s arg_hint)]
        else if tool_hint = "calculate" then [("expression", .s arg_hint)]
        else if tool_hint = "read_url" then [("url", .s arg_hint)]
        else []
      if arguments.isEmpty = false then
        [("name", .s tool_hint), ("arguments", .vdict arguments)]
      else []
    else []
  let tool_call2 :=
    if tool_call.isEmpty = true then
      match falcon with
      | some generated => generated
      | none => infer_tool_from_keywords user_input tool_hint
    else tool_call
  fixToolCallArgs tool_call2

/-! ### C5: rejection of natural-language `execute_command` argHints -/

/-- Modelled from the spec: "(b) contains CJK characters" — the standard
CJK blocks: Han (CJK Unified Ideographs), Hangul syllables, Hiragana and
Katakana.  Used only to state the claim, which the code is compared
against. -/
def hasCJKChar (s : String) : Bool :=
  s.toList.any (fun c =>
    (0x4E00 ≤ c.toNat && c.toNat ≤ 0x9FFF) ||
    (0xAC00 ≤ c.toNat && c.toNat ≤ 0xD7A3) ||
    (0x3040 ≤ c.toNat && c.toNat ≤ 0x30FF))

/-- C5 counterexample: the argHint `"查版本"` consists of CJK (Han)
characters, so the claim says it must be rejected; but the code's check is
`[가-힣]` (Hangul syllables only), so the hint is accepted and used
verbatim as the command argument. -/
theorem execute_command_arg_hint_cjk_counterexample :
    hasCJKChar "查版本" = true ∧
    acquire_tool_call "check version" "execute_command" "查版本" none =
      [("name", .s "execute_command"),
       ("arguments", .vdict [("command", .s "查版本")])] := by
  constructor
  · decide
  · rfl

/-- C5 (amended): whenever the router supplies a non-empty argHint for
`execute_command` and the Falcon tool-caller model is not loaded, the
dispatcher rejects the hint and falls back to keyword-based inference over
the original text iff the hint starts with an instruction verb (Check,
Verify, …) and has more than two words, or contains a Hangul syllable
(`[가-힣]` — not all CJK); otherwise the hint is used verbatim as the
command argument. -/
theorem execute_command_arg_hint_validation
    (user_input arg_hint : String) (hne : arg_hint ≠ "") :
    (execCmdArgHintValid arg_hint = false →
      acquire_tool_call user_input "execute_command" arg_hint none =
        fixToolCallArgs (infer_tool_from_keywords user_input "execute_command")) ∧
    (execCmdArgHintValid arg_hint = true →
      acquire_tool_call user_input "execute_command" arg_hint none =
        [("name", .s "execute_command"),
         ("arguments", .vdict [("command", .s arg_hint)])]) := by
  constructor
  · intro hrej
    unfold acquire_tool_call
    dsimp only
    rw [if_pos (show arg_hint ≠ "" ∧ ("execute_command" : String) ≠ "" from ⟨hne, by decide⟩)]
    rw [if_neg (by decide : ¬ ("execute_command" : String) ∈ ["search_web", "search_news", "search_wikipedia"])]
    rw [if_pos (rfl : ("execute_command" : String) = "execute_command")]
    rw [if_neg (by rw [hrej]; decide : ¬ execCmdArgHintValid arg_hint = true)]
    rfl
  · intro hval
    unfold acquire_tool_call
    dsimp only
    rw [if_pos (show arg_hint ≠ "" ∧ ("execute_command" : String) ≠ "" from ⟨hne, by decide⟩)]
    rw [if_neg (by decide : ¬ ("execute_command" : String) ∈ ["search_web", "search_news", "search_wikipedia"])]
    rw [if_pos (rfl : ("execute_command" : String) = "execute_command")]
    rw [if_pos hval]
    rfl

/-- Witness for the amended C5: the hint `"Check if uv is installed"`
starts with the instruction verb `Check` and has five words, so it is
rejected and keyword inference over the original text is used. -/
theorem execute_command_arg_hint_validation_witness :
    acquire_tool_call "Check if uv is installed and python version"
      "execute_command" "Check if uv is installed" none =
      fixToolCallArgs (infer_tool_from_keywords
        "Check if uv is installed and python version" "execute_command") :=
  (execute_command_arg_hint_validation
    "Check if uv is installed and python version" "Check if uv is installed"
    (by decide)).1 (by decide)

/-! ## Parallel runner (`src/tiny_moa/cowork/parallel_runner.py`) -/

/-- Behaviour of one submitted unit of work in the thread pool: the
callable finishes after some wall-clock duration (in seconds) with a
value, or raises.  The duration is carried so that the 60-second claim can
be stated. -/
inductive CoTaskOutcome where
  | completes (durationSec : Nat) (value : Val)
  | raises (msg : String)

/-- `TaskResult` from `parallel_runner.py`. -/
structure RunnerTaskResult where
  task_id : String
  success : Bool
  result : Option Val
  error : Option String

/-- `ParallelRunner.run_tasks` from `parallel_runner.py`.  The loop
iterates `concurrent.futures.as_completed(future_to_task)`, which yields a
future only once its callable has finished; `future.result(timeout=60)` is
therefore always called on an already-finished future and can only return
its value or re-raise its exception — the
`concurrent.futures.TimeoutError` branch (`"Task timed out after 60s"`)
can never be taken.  Each task is keyed by its id; entries are produced
from that task's own outcome only.  (`as_completed` yields in completion
order; the returned dict is modelled in submission order, which carries
the same key → entry mapping.) -/
def run_tasks (tasks : List (String × CoTaskOutcome)) :
    List (String × RunnerTaskResult) :=
  tasks.map (fun t =>
    (t.1, match t.2 with
      | .completes _ value =>
        { task_id := t.1, success := true, result := some value, error := none }
      | .raises msg =>
        { task_id := t.1, success := false, result := none, error := some msg }))

/-! ### C9: the 60-second timeout is dead code -/

/-- C9 (code bug): a task whose execute function runs for 61 seconds and
then returns is reported as a *successful* entry carrying its value — not
as a failed entry with a timeout error, contrary to the claim and the
spec's 60 s-timeout contract — because `as_completed` waits for the future
to finish before `future.result(timeout=60)` is ever called.  The sibling
task's entry is (as the claim says) untouched. -/
theorem run_tasks_timeout_never_fires :
    run_tasks [("t1", .completes 61 (.s "late result")),
               ("t2", .completes 1 (.s "ok"))] =
      [("t1", { task_id := "t1", success := true,
                result := some (.s "late result"), error := none }),
       ("t2", { task_id := "t2", success := true,
                result := some (.s "ok"), error := none })] := rfl

/-! ## Router (`Brain.route`, `src/tiny_moa/brain.py` lines 131–282) -/

namespace Brain

/-- Outcome of the router's LLM fallback tier: the completion either
yields a JSON object between its first `\x7b` and last `\x7d` that
`json.loads` accepts — the parsed dict, which `route` returns verbatim —
or it does not (no braces, or a parse error). -/
inductive LLMOutcome where
  | parsed (d : Dict)
  | unparsed

/-- `re.search(r'(202[3-9]|203[0-9])년?', user_input)` hits iff one of
these four-digit strings occurs (the trailing `년?` is optional, so it
never constrains the match). -/
def yearStrings : List String :=
  ["2023", "2024", "2025", "2026", "2027", "2028", "2029",
   "2030", "2031", "2032", "2033", "2034", "2035", "2036", "2037", "2038", "2039"]

def yearPatternHit (user_input : String) : Bool :=
  yearStrings.any (fun y => pyContains user_input y)

/-- The alternatives of
`r'(?:gpt|claude|moa|iphone|gemini|llama|mistral|qwen|v\.)[- ]?\d'`. -/
def versionPrefixes : List String :=
  ["gpt", "claude", "moa", "iphone", "gemini", "llama", "mistral", "qwen", "v."]

def digitStrings : List String :=
  ["0", "1", "2", "3", "4", "5", "6", "7", "8", "9"]

/-- `re.search(version_pattern, user_lower)` hits iff some prefix,
optionally followed by `-` or a space, followed by a digit, occurs. -/
def versionPatternHit (user_lower : String) : Bool :=
  versionPrefixes.any (fun p =>
    ["", "-", " "].any (fun m =>
      digitStrings.any (fun d => pyContains user_lower (p ++ m ++ d))))

def recent_keywords : List String :=
  ["최신", "최근", "latest", "newest", "recent", "올해", "지난주", "어제"]

def direct_fast : List String :=
  ["안녕", "hello", "hi ", "고마워", "감사", "thanks", "thank you", "반가워", "bye", "안녕히",
   "요약해줘", "요약해", "정리해줘", "summarize", "summary", "번역해줘", "translate",
   "설명해줘", "explain", "차이점", "difference"]

def concept_patterns : List String := ["뭐야", "뭘까", "what is", "what's"]

def tool_keywords : List String :=
  ["날씨", "weather", "뉴스", "news", "검색", "search", "시간", "time", "버전", "version"]

def tech_terms : List String :=
  ["uv", "docker", "kubernetes", "npm", "pip", "git", "rust", "cargo",
   "langchain", "pytorch", "tensorflow", "react", "vue", "angular"]

def calc_keywords : List String :=
  ["더해", "빼줘", "곱해", "나눠", "계산해", "calculate", "+", "-", "*", "/"]

def reasoner_fast : List String :=
  ["함수 작성", "알고리즘 구현", "코드 작성", "피보나치", "fibonacci", "퀵소트", "quicksort",
   "aime", "문제 풀", "버그 찾", "디버깅", "debug", "최적화해줘", "optimize", "sql 쿼리"]

def creation_keywords : List String :=
  ["write", "code", "create", "generate", "function", "script", "class", "impl",
   "작성", "만들", "구현", "짜줘"]

/-- The `fast_tools` dict, in insertion (iteration) order. -/
def fast_tools : List (String × List String) :=
  [("get_weather", ["날씨", "weather", "기온", "온도"]),
   ("search_web", ["검색", "search", "정보", "info", "search_web"]),
   ("search_news", ["뉴스", "news", "최신", "기사", "article", "소식", "보도", "발표", "기사들", "search_news"]),
   ("execute_command", ["version", "버전", "check", "확인", "실행", "run", "installed", "설치", "status", "환경"]),
   ("get_current_time", ["시간", "time", "몇시", "date", "오늘"])]

def historical_keywords : List String :=
  ["yesterday", "last week", "history", "past", "어제", "지난", "과거", "작년"]

def cmd_targets : List String :=
  ["python", "uv", "pip", "node", "npm", "git", "docker", "system", "os"]

/-- The `for tool_name, keywords in fast_tools.items()` loop of `route`:
on a keyword hit, historical weather requests divert to `search_web`,
`execute_command` additionally requires a command target (otherwise the
loop continues), every other tool returns immediately. -/
def fastToolsLoop (user_input user_lower : String) :
    List (String × List String) → Option Dict
  | [] => none
  | (tool_name, keywords) :: rest =>
    if keywords.any (fun kw => pyContains user_lower kw) then
      if tool_name = "get_weather" ∧
          historical_keywords.any (fun k => pyContains user_lower k) = true then
        some [("route", .s "TOOL"), ("specialist_prompt", .s user_input),
              ("tool_hint", .s "search_web")]
      else if tool_name = "execute_command" then
        if (cmd_targets.any (fun t => pyContains user_lower t)) ||
            pyContains user_lower "ls" || pyContains user_lower "dir" then
          some [("route", .s "TOOL"), ("specialist_prompt", .s user_input),
                ("tool_hint", .s tool_name)]
        else fastToolsLoop user_input user_lower rest
      else
        some [("route", .s "TOOL"), ("specialist_prompt", .s user_input),
              ("tool_hint", .s tool_name)]
    else fastToolsLoop user_input user_lower rest

def direct_keywords : List String :=
  ["요약", "정리", "설명", "summarize", "explain", "translate", "번역", "안녕",
   "hello", "hi", "반가워"]

def keywords_reasoner : List String :=
  ["함수", "알고리즘", "수학", "증명", "aime", "fibonacci", "script", "class"]

/-- `Brain.route` from `brain.py` (lines 131–282).  The LLM call of the
fallback tier is external; its completion enters through `llm`: a
completion whose brace-delimited slice parses is `.parsed d` (the source
then returns `d` verbatim), anything else is `.unparsed`. -/
def route (user_input : String) (llm : LLMOutcome) : Dict :=
  let user_lower := pyLower user_input
  if yearPatternHit user_input || versionPatternHit user_lower ||
      recent_keywords.any (fun k => pyContains user_lower k) then
    [("route", .s "TOOL"), ("specialist_prompt", .s user_input), ("tool_hint", .s "search_web")]
  else if direct_fast.any (fun k => pyContains user_lower k) then
    [("route", .s "DIRECT"), ("specialist_prompt", .s ""), ("tool_hint", .s "")]
  else if (concept_patterns.any (fun k => pyContains user_lower k)) &&
      ((tech_terms.any (fun t => pyContains user_lower t)) ||
        !(tool_keywords.any (fun t => pyContains user_lower t))) then
    if tech_terms.any (fun t => pyContains user_lower t) then
      [("route", .s "TOOL"), ("specialist_prompt", .s user_input), ("tool_hint", .s "search_web")]
    else
      [("route", .s "DIRECT"), ("specialist_prompt", .s ""), ("tool_hint", .s "")]
  else if calc_keywords.any (fun k => pyContains user_lower k) then
    [("route", .s "TOOL"), ("specialist_prompt", .s user_input), ("tool_hint", .s "calculate")]
  else if reasoner_fast.any (fun k => pyContains user_lower k) then
    [("route", .s "REASONER"), ("specialist_prompt", .s user_input), ("tool_hint", .s "")]
  else
    let is_creation := creation_keywords.any (fun k => pyContains user_lower k)
    let fastTool :=
      if is_creation then none else fastToolsLoop user_input user_lower fast_tools
    match fastTool with
    | some d => d
    | none =>
      match llm with
      | .parsed d => d
      | .unparsed =>
        if (direct_keywords.any (fun kw => pyContains user_lower kw)) && !is_creation then
          [("route", .s "DIRECT"), ("specialist_prompt", .s ""), ("tool_hint", .s "")]
        else if (pyContains user_lower "python" || pyContains user_lower "코드" ||
                  pyContains user_lower "code") &&
                !(["version", "check", "확인", "버전", "summarize", "요약"].any
                    (fun k => pyContains user_lower k)) then
          [("route", .s "REASONER"), ("specialist_prompt", .s user_input), ("tool_hint", .s "")]
        else if (keywords_reasoner.any (fun kw => pyContains user_lower kw)) &&
                !(direct_keywords.any (fun kw => pyContains user_lower kw)) then
          [("route", .s "REASONER"), ("specialist_prompt", .s user_input), ("tool_hint", .s "")]
        else
          [("route", .s "DIRECT"), ("specialist_prompt", .s ""), ("tool_hint", .s "")]

end Brain

/-- The routing invariant of claim C1/P1: the decision's `route` field is
one of REASONER, TOOL, DIRECT, and its `tool_hint` field is non-empty iff
the route is TOOL. -/
def RouteInvariant (d : Dict) : Prop :=
  (getStr d "route" "" = "REASONER" ∨ getStr d "route" "" = "TOOL" ∨
   getStr d "route" "" = "DIRECT") ∧
  (getStr d "tool_hint" "" ≠ "" ↔ getStr d "route" "" = "TOOL")

instance (d : Dict) : Decidable (RouteInvariant d) := by
  unfold RouteInvariant
  exact inferInstance

theorem routeInvariant_tool (sp hint : String) (h : hint ≠ "") :
    RouteInvariant [("route", .s "TOOL"), ("specialist_prompt", .s sp),
                    ("tool_hint", .s hint)] := by
  refine ⟨Or.inr (Or.inl rfl), ?_, ?_⟩
  · intro _; rfl
  · intro _; exact h

theorem routeInvariant_direct (sp : String) :
    RouteInvariant [("route", .s "DIRECT"), ("specialist_prompt", .s sp),
                    ("tool_hint", .s "")] := by
  refine ⟨Or.inr (Or.inr rfl), ?_, ?_⟩
  · intro h; exact absurd rfl h
  · intro h
    have h2 : ("DIRECT" : String) = "TOOL" := h
    exact absurd h2 (by decide)

theorem routeInvariant_reasoner (sp : String) :
    RouteInvariant [("route", .s "REASONER"), ("specialist_prompt", .s sp),
                    ("tool_hint", .s "")] := by
  refine ⟨Or.inl rfl, ?_, ?_⟩
  · intro h; exact absurd rfl h
  · intro h
    have h2 : ("REASONER" : String) = "TOOL" := h
    exact absurd h2 (by decide)

theorem fastToolsLoop_invariant (user_input user_lower : String) :
    ∀ lst d, Brain.fastToolsLoop user_input user_lower lst = some d →
      (∀ p ∈ lst, p.1 ≠ "") → RouteInvariant d := by
  intro lst
  induction lst with
  | nil => intro d h _; simp [Brain.fastToolsLoop] at h
  | cons hd rest ih =>
    obtain ⟨tool_name, keywords⟩ := hd
    intro d h hne
    have hne_head : tool_name ≠ "" := hne (tool_name, keywords) (List.mem_cons_self _ _)
    have hne_rest : ∀ p ∈ rest, p.1 ≠ "" := fun p hp => hne p (List.mem_cons_of_mem _ hp)
    unfold Brain.fastToolsLoop at h
    split at h
    · split at h
      · injection h with h
        subst h
        exact routeInvariant_tool user_input "search_web" (by decide)
      · split at h
        · split at h
          · injection h with h
            subst h
            exact routeInvariant_tool user_input tool_name hne_head
          · exact ih d h hne_rest
        · injection h with h
          subst h
          exact routeInvariant_tool user_input tool_name hne_head
    · exact ih d h hne_rest

/-! ### C1: routing totality and the tool-hint invariant -/

/-- C1 counterexample: on the input `"zzz"` no fast path fires and the LLM
fallback tier is consulted; a completion parsing to
`{"route": "DIRECT", "tool_hint": "get_weather"}` is returned verbatim,
so the returned decision has a non-empty `tool_hint` with
`route = DIRECT`, violating the claimed invariant (the parsed object is
not validated at all). -/
theorem route_llm_dict_returned_counterexample :
    Brain.route "zzz" (.parsed [("route", .s "DIRECT"), ("tool_hint", .s "get_weather")]) =
      [("route", .s "DIRECT"), ("tool_hint", .s "get_weather")] ∧
    ¬ RouteInvariant
      (Brain.route "zzz" (.parsed [("route", .s "DIRECT"), ("tool_hint", .s "get_weather")])) := by
  constructor
  · rfl
  · decide

/-- C1 (amended): for every input string, `Brain.route` returns exactly
one decision, and whenever that decision comes from the fast keyword tier
or from the keyword fallback after an unparseable LLM completion, its
`route` field is one of REASONER, TOOL, DIRECT and its `tool_hint` is
non-empty iff the route is TOOL.  (A parseable completion of the LLM
fallback tier is returned unvalidated and can violate the invariant.) -/
theorem route_invariant_unparsed (user_input : String) :
    RouteInvariant (Brain.route user_input .unparsed) := by
  unfold Brain.route
  dsimp only
  split
  · exact routeInvariant_tool user_input "search_web" (by decide)
  · split
    · exact routeInvariant_direct ""
    · split
      · split
        · exact routeInvariant_tool user_input "search_web" (by decide)
        · exact routeInvariant_direct ""
      · split
        · exact routeInvariant_tool user_input "calculate" (by decide)
        · split
          · exact routeInvariant_reasoner user_input
          · split
            · rename_i d heq
              split at heq
              · exact absurd heq (by simp)
              · exact fastToolsLoop_invariant user_input (pyLower user_input)
                  Brain.fast_tools d heq (by decide)
            · split
              · exact routeInvariant_direct ""
              · split
                · exact routeInvariant_reasoner user_input
                · split
                  · exact routeInvariant_reasoner user_input
                  · exact routeInvariant_direct ""

/-! ## Decomposer (`Brain.decompose_query`, `brain.py` lines 632–732) -/

/-- The literal alternatives of the decomposition split pattern
`r"\s*(?:, | and | or | vs | & | as well as )\s*"`, in regex-alternation
order (stored lowercase; the split is `re.IGNORECASE`). -/
def sepAlts : List (List Char) :=
  [", ", " and ", " or ", " vs ", " & ", " as well as "].map String.toList

/-- Case-insensitive literal match at the head of `l`: strip `alt`,
comparing `l`'s characters lowercased. -/
def dropPrefixLower : List Char → List Char → Option (List Char)
  | [], rest => some rest
  | _ :: _, [] => none
  | a :: as, c :: cs => if c.toLower = a then dropPrefixLower as cs else none

/-- First alternative matching at this position (alternation order). -/
def firstAlt : List (List Char) → List Char → Option (List Char)
  | [], _ => none
  | a :: rest, l =>
    match dropPrefixLower a l with
    | some r => some r
    | none => firstAlt rest l

/-- Greedy-with-backtracking leading `\s*`: try consuming `k` whitespace
characters (the greedy maximum first), then fewer. -/
def matchWsAlt (l : List Char) : Nat → Option (List Char)
  | 0 => firstAlt sepAlts l
  | k + 1 =>
    match firstAlt sepAlts (l.drop (k + 1)) with
    | some r => some r
    | none => matchWsAlt l k

/-- One attempted match of `\s*(?:alt)\s*` at the head of `l`: greedy
leading whitespace with backtracking over the alternatives, then greedy
trailing whitespace.  Returns the remainder after the match. -/
def matchSep (l : List Char) : Option (List Char) :=
  (matchWsAlt l (l.takeWhile isPySpace).length).map (fun r => r.dropWhile isPySpace)

/-- The `re.split` scan: leftmost match wins; on a match, close the
current part and continue after the match. -/
def splitScan : Nat → List Char → List Char → List (List Char)
  | 0, rest, cur => [cur.reverse ++ rest]
  | _ + 1, [], cur => [cur.reverse]
  | fuel + 1, c :: cs, cur =>
    match matchSep (c :: cs) with
    | some rest => cur.reverse :: splitScan fuel rest []
    | none => splitScan fuel cs (c :: cur)

/-- `re.split(split_pattern, translated, flags=re.IGNORECASE)` from
`decompose_query`. -/
def pySplitCoord (s : String) : List String :=
  (splitScan (s.toList.length + 1) s.toList []).map (fun l => ⟨l⟩)

/-- A coordinator (one of the split pattern's alternatives) occurs in the
lowercased text. -/
def hasCoordinator (t : String) : Bool :=
  sepAlts.any (fun a => containsSeq a (t.toList.map Char.toLower))

theorem dropPrefixLower_isPrefixL :
    ∀ (a l r : List Char), dropPrefixLower a l = some r →
      isPrefixL a (l.map Char.toLower) = true := by
  intro a
  induction a with
  | nil => intro l r _; rfl
  | cons x xs ih =>
    intro l r h
    cases l with
    | nil => simp [dropPrefixLower] at h
    | cons c cs =>
      by_cases hc : c.toLower = x
      · unfold dropPrefixLower at h
        rw [if_pos hc] at h
        simp only [List.map_cons, isPrefixL, Bool.and_eq_true, decide_eq_true_eq]
        exact ⟨hc.symm, ih cs r h⟩
      · unfold dropPrefixLower at h
        rw [if_neg hc] at h
        cases h

theorem firstAlt_mem :
    ∀ (alts : List (List Char)) (l r : List Char), firstAlt alts l = some r →
      ∃ a ∈ alts, dropPrefixLower a l = some r := by
  intro alts
  induction alts with
  | nil => intro l r h; simp [firstAlt] at h
  | cons a rest ih =>
    intro l r h
    unfold firstAlt at h
    cases ha : dropPrefixLower a l with
    | some q =>
      rw [ha] at h
      injection h with h
      subst h
      exact ⟨a, List.mem_cons_self _ _, ha⟩
    | none =>
      rw [ha] at h
      dsimp only at h
      obtain ⟨b, hb, hbl⟩ := ih l r h
      exact ⟨b, List.mem_cons_of_mem _ hb, hbl⟩

theorem matchWsAlt_firstAlt :
    ∀ (k : Nat) (l r : List Char), matchWsAlt l k = some r →
      ∃ j, firstAlt sepAlts (l.drop j) = some r := by
  intro k
  induction k with
  | zero => intro l r h; exact ⟨0, by simpa [matchWsAlt] using h⟩
  | succ n ih =>
    intro l r h
    unfold matchWsAlt at h
    cases ha : firstAlt sepAlts (l.drop (n + 1)) with
    | some q =>
      rw [ha] at h
      injection h with h
      subst h
      exact ⟨n + 1, ha⟩
    | none =>
      rw [ha] at h
      dsimp only at h
      exact ih l r h

theorem containsSeq_of_drop (pat : List Char) :
    ∀ (k : Nat) (l : List Char), containsSeq pat (l.drop k) = true →
      containsSeq pat l = true := by
  intro k
  induction k with
  | zero => intro l h; simpa using h
  | succ n ih =>
    intro l h
    cases l with
    | nil => simpa using h
    | cons c cs => exact containsSeq_cons _ _ _ (ih cs (by simpa using h))

theorem matchSep_coordinator (l r : List Char) (h : matchSep l = some r) :
    ∃ a ∈ sepAlts, containsSeq a (l.map Char.toLower) = true := by
  unfold matchSep at h
  obtain ⟨q, hq, _⟩ := Option.map_eq_some'.mp h
  obtain ⟨j, hj⟩ := matchWsAlt_firstAlt _ l q hq
  obtain ⟨a, ha, hal⟩ := firstAlt_mem _ _ _ hj
  refine ⟨a, ha, ?_⟩
  have hpre := dropPrefixLower_isPrefixL a (l.drop j) q hal
  have hcd : containsSeq a ((l.map Char.toLower).drop j) = true := by
    rw [← List.map_drop]
    exact containsSeq_of_isPrefixL _ _ hpre
  exact containsSeq_of_drop a j _ hcd

theorem splitScan_no_coordinator :
    ∀ (fuel : Nat) (l cur : List Char),
      (∀ a ∈ sepAlts, containsSeq a (l.map Char.toLower) = false) →
      splitScan fuel l cur = [cur.reverse ++ l] := by
  intro fuel
  induction fuel with
  | zero => intro l cur _; rfl
  | succ n ih =>
    intro l cur hno
    cases l with
    | nil => simp [splitScan]
    | cons c cs =>
      have hms : matchSep (c :: cs) = none := by
        cases hm : matchSep (c :: cs) with
        | none => rfl
        | some r =>
          obtain ⟨a, ha, hca⟩ := matchSep_coordinator _ _ hm
          rw [hno a ha] at hca
          cases hca
      unfold splitScan
      rw [hms]
      have hno' : ∀ a ∈ sepAlts, containsSeq a (cs.map Char.toLower) = false := by
        intro a ha
        cases hc : containsSeq a (cs.map Char.toLower) with
        | false => rfl
        | true =>
          have := containsSeq_cons a (c.toLower) _ hc
          rw [show (c.toLower :: cs.map Char.toLower) =
              ((c :: cs).map Char.toLower) from rfl, hno a ha] at this
          cases this
      rw [ih cs (c :: cur) hno']
      simp

theorem coordinator_split_single (t : String) (h : hasCoordinator t = false) :
    pySplitCoord t = [t] := by
  have hno : ∀ a ∈ sepAlts, containsSeq a (t.toList.map Char.toLower) = false := by
    intro a ha
    have := List.any_eq_false.mp h a ha
    simpa using this
  unfold pySplitCoord
  rw [splitScan_no_coordinator _ _ _ hno]
  rfl

/-- The `translated` text of `decompose_query`: the external translator's
output, or the raw input when translation raised. -/
def translatedOf (user_input : String) (tr : TransOutcome) : String :=
  match tr with
  | .ok t => t
  | .exn => user_input

namespace Brain

/-- The `search_stopwords` set of `decompose_query`. -/
def search_stopwords : List String :=
  ["tell", "me", "show", "find", "search", "check", "get", "know", "want",
   "please", "can", "could", "would", "results", "based", "on", "articles",
   "about", "of", "for", "in", "to", "with", "by", "from", "generated",
   "identified", "found", "mentioned", "using", "explain", "explanation", "which",
   "recent", "latest", "current", "news", "information", "info", "data", "status",
   "difference", "compare", "comparison"]

/-- The per-fragment body of `decompose_query`'s entity loop: strip
whitespace then `?.!,`; skip empty fragments; POS-tag via NLTK (external;
`none` models a raised exception), keep content words
(`NN`/`JJ`/`CD`/`FW` tags) outside the stopword set, and emit the
space-joined entity when it has at least 2 characters.  On an NLTK
failure, fall back to the stripped fragment when longer than 2. -/
def processPart (posTag : String → Option (List (String × String)))
    (part : String) : Option String :=
  let clean_part := pyStripChars (pyStrip part) "?.!,"
  if clean_part = "" then none
  else
    match posTag clean_part with
    | some pos_tags =>
      let valid_tokens := (pos_tags.filter (fun wt =>
        (pyStartsWith wt.2 "NN" || pyStartsWith wt.2 "JJ" ||
         pyStartsWith wt.2 "CD" || pyStartsWith wt.2 "FW") &&
        !(search_stopwords.contains (pyLower wt.1)))).map (fun wt => wt.1)
      let entity_cand := String.intercalate " " valid_tokens
      if 2 ≤ entity_cand.toList.length then some entity_cand else none
    | none =>
      if 2 < clean_part.toList.length then some clean_part else none

/-- The post-processing tail of `decompose_query` (steps 3 onward):
append the `Compare results` marker, add `latest news` for news queries,
drop action words, and return the original as a singleton when nothing
is left. -/
def decompose_post (user_input translated : String)
    (entities : List String) : List String :=
  let entities2 :=
    if (["compare", "difference", "vs", "versus"].any
          (fun k => pyContains (pyLower translated) k)) &&
        decide (2 ≤ entities.length) &&
        !(entities.contains "Compare results") then
      entities ++ ["Compare results"]
    else entities
  let is_news_query := ["뉴스", "news", "소식", "기사"].any
    (fun k => pyContains (pyLower user_input) k || pyContains (pyLower translated) k)
  let entities3 :=
    if is_news_query && !entities2.isEmpty then
      (entities2.filter (fun e =>
        !(["news", "report", "latest", "recent"].contains (pyLower e)))).map
        (fun e => e ++ " latest news")
    else entities2
  let entities4 := entities3.filter (fun e =>
    !(["report", "write", "summary", "summarize", "organize", "정리", "레포트"].contains
        (pyLower e)))
  if entities4.isEmpty = true then [translated] else entities4

/-- `Brain.decompose_query` from `brain.py` (lines 632–732): translate to
English (external translator as `tr`), split on English coordinators,
extract an entity per fragment (NLTK as `posTag`), then post-process. -/
def decompose_query (user_input : String) (tr : TransOutcome)
    (posTag : String → Option (List (String × String))) : List String :=
  let translated := translatedOf user_input tr
  let parts := pySplitCoord translated
  let entities := parts.filterMap (processPart posTag)
  decompose_post user_input translated entities

end Brain

theorem length_final_pos (t : String) (l : List String) :
    1 ≤ (if l.isEmpty = true then [t] else l).length := by
  cases l with
  | nil => simp
  | cons a as => simp

theorem length_final_eq1 (t : String) (l : List String) (h : l.length ≤ 1) :
    (if l.isEmpty = true then [t] else l).length = 1 := by
  cases l with
  | nil => simp
  | cons a as =>
    cases as with
    | nil => simp
    | cons b bs => simp [List.length_cons] at h

theorem decompose_post_len_ge1 (ui t : String) (es : List String) :
    1 ≤ (Brain.decompose_post ui t es).length := by
  unfold Brain.decompose_post
  dsimp only
  exact length_final_pos _ _

theorem decompose_post_len_eq1 (ui t : String) (es : List String)
    (hcmp : (["compare", "difference", "vs", "versus"].any
      (fun k => pyContains (pyLower t) k)) = false)
    (hlen : es.length ≤ 1) :
    (Brain.decompose_post ui t es).length = 1 := by
  unfold Brain.decompose_post
  dsimp only
  rw [hcmp]
  simp only [Bool.false_and]
  rw [if_neg (by decide : ¬ (false = true))]
  apply length_final_eq1
  refine le_trans (List.length_filter_le _ _) ?_
  split
  · refine le_trans (le_of_eq (List.length_map _ _)) ?_
    exact le_trans (List.length_filter_le _ _) hlen
  · exact hlen

/-! ### C8: decomposition length bounds -/

/-- C8: for every input string and every behaviour of the external
translator and of NLTK's tagger, `Brain.decompose_query` returns at least
one sub-query; and when the translated input contains no coordinator
(no `", "`, `" and "`, `" or "`, `" vs "`, `" & "`, `" as well as "`,
case-insensitively) and no explicit comparison word (`compare`,
`difference`, `vs`, `versus`), it returns exactly one. -/
theorem decompose_query_length_bounds (user_input : String) (tr : TransOutcome)
    (posTag : String → Option (List (String × String))) :
    1 ≤ (Brain.decompose_query user_input tr posTag).length ∧
    ((hasCoordinator (translatedOf user_input tr) = false ∧
      (["compare", "difference", "vs", "versus"].any
        (fun k => pyContains (pyLower (translatedOf user_input tr)) k)) = false) →
      (Brain.decompose_query user_input tr posTag).length = 1) := by
  constructor
  · unfold Brain.decompose_query
    exact decompose_post_len_ge1 _ _ _
  · rintro ⟨hco, hcmp⟩
    unfold Brain.decompose_query
    dsimp only
    rw [coordinator_split_single _ hco]
    have hlen : ([translatedOf user_input tr].filterMap
        (Brain.processPart posTag)).length ≤ 1 := by
      cases hpt : Brain.processPart posTag (translatedOf user_input tr) with
      | none => simp [List.filterMap_cons, hpt]
      | some e => simp [List.filterMap_cons, hpt]
    exact decompose_post_len_eq1 _ _ _ hcmp hlen

/-- Witness for C8 at a concrete input: `"tell me about seoul"` has no
coordinator and no comparison word, so exactly one sub-query comes back. -/
theorem decompose_query_length_bounds_witness :
    (Brain.decompose_query "tell me about seoul" (.ok "tell me about seoul")
      (fun _ => some [("seoul", "NN")])).length = 1 :=
  (decompose_query_length_bounds "tell me about seoul" (.ok "tell me about seoul")
    (fun _ => some [("seoul", "NN")])).2 ⟨by decide, by decide⟩

/-! ## C7 revisited: preservation of each code block of a multi-block
response.

The restoration loop of `from_english` can interfere with itself: an
earlier replacement can consume the characters of a later placeholder,
and a block whose own text contains a higher-indexed placeholder is
rewritten when that placeholder is restored.  The lemmas below isolate
the source's honest guarantee: a placeholder contains no backtick and a
fenced block begins and ends with one, so a placeholder match can never
cut across a block occurrence unless the placeholder occurs *inside* the
block. -/

theorem mem_of_isPrefixL :
    ∀ (a l : List Char) (c : Char), isPrefixL a l = true → c ∈ a → c ∈ l := by
  intro a
  induction a with
  | nil => intro l c _ hc; simp at hc
  | cons x xs ih =>
    intro l c h hc
    cases l with
    | nil => simp [isPrefixL] at h
    | cons y ys =>
      simp only [isPrefixL, Bool.and_eq_true, decide_eq_true_eq] at h
      rcases List.mem_cons.mp hc with rfl | hc2
      · exact List.mem_cons.mpr (Or.inl h.1)
      · exact List.mem_cons_of_mem _ (ih ys c h.2 hc2)

theorem mem_of_containsSeq :
    ∀ (pat l : List Char) (c : Char), containsSeq pat l = true → c ∈ pat → c ∈ l := by
  intro pat l
  induction l with
  | nil =>
    intro c h hc
    cases pat with
    | nil => simp at hc
    | cons a as => simp [containsSeq, List.isEmpty] at h
  | cons d ds ih =>
    intro c h hc
    by_cases hp : isPrefixL pat (d :: ds) = true
    · exact mem_of_isPrefixL pat (d :: ds) c hp hc
    · have h2 : containsSeq pat ds = true := by
        unfold containsSeq at h
        simpa [hp] using h
      exact List.mem_cons_of_mem _ (ih c h2 hc)

theorem isPrefixL_of_append_of_le :
    ∀ (p w v : List Char), isPrefixL p (w ++ v) = true → p.length ≤ w.length →
      isPrefixL p w = true := by
  intro p
  induction p with
  | nil => intro w v _ _; rfl
  | cons q qs ih =>
    intro w v h hl
    cases w with
    | nil => simp at hl
    | cons c cs =>
      simp only [List.cons_append, isPrefixL, Bool.and_eq_true, decide_eq_true_eq] at h ⊢
      refine ⟨h.1, ih cs v h.2 ?_⟩
      simp only [List.length_cons] at hl
      omega

theorem isPrefixL_take_of_le :
    ∀ (w p v : List Char), isPrefixL p (w ++ v) = true → w.length ≤ p.length →
      isPrefixL w p = true := by
  intro w
  induction w with
  | nil => intro p v _ _; rfl
  | cons c cs ih =>
    intro p v h hl
    cases p with
    | nil => simp at hl
    | cons q qs =>
      simp only [List.cons_append, isPrefixL, Bool.and_eq_true, decide_eq_true_eq] at h ⊢
      refine ⟨h.1.symm, ih qs v h.2 ?_⟩
      simp only [List.length_cons] at hl
      omega

theorem isPrefixL_drop_append :
    ∀ (u p z : List Char), isPrefixL p (u ++ z) = true → u.length ≤ p.length →
      isPrefixL (p.drop u.length) z = true := by
  intro u
  induction u with
  | nil => intro p z h _; simpa using h
  | cons c cs ih =>
    intro p z h hl
    cases p with
    | nil => simp at hl
    | cons q qs =>
      simp only [List.cons_append, isPrefixL, Bool.and_eq_true, decide_eq_true_eq] at h
      have := ih qs z h.2 (by simp only [List.length_cons] at hl; omega)
      simpa [List.drop] using this

theorem drop_append_of_le {α : Type} :
    ∀ (u z : List α) (n : Nat), n ≤ u.length → (u ++ z).drop n = u.drop n ++ z := by
  intro u
  induction u with
  | nil =>
    intro z n hn
    have : n = 0 := by simpa using hn
    simp [this]
  | cons c cs ih =>
    intro z n hn
    cases n with
    | zero => simp
    | succ m =>
      simp only [List.cons_append, List.drop_succ_cons]
      exact ih z m (by simpa using hn)

theorem containsSeq_decomp :
    ∀ (pat l : List Char), containsSeq pat l = true → ∃ u v, l = u ++ pat ++ v := by
  intro pat l
  induction l with
  | nil =>
    intro h
    cases pat with
    | nil => exact ⟨[], [], rfl⟩
    | cons a as => simp [containsSeq, List.isEmpty] at h
  | cons c cs ih =>
    intro h
    by_cases hp : isPrefixL pat (c :: cs) = true
    · exact ⟨[], (c :: cs).drop pat.length,
        by simpa using eq_append_drop_of_isPrefixL pat (c :: cs) hp⟩
    · have h2 : containsSeq pat cs = true := by
        unfold containsSeq at h
        simpa [hp] using h
      obtain ⟨u, v, huv⟩ := ih h2
      exact ⟨c :: u, v, by simp [huv]⟩

theorem replaceOnceL_nil_pat (rep : List Char) :
    ∀ l, replaceOnceL [] rep l = l := by
  intro l
  induction l with
  | nil => rfl
  | cons c cs ih =>
    unfold replaceOnceL
    rw [if_neg (by simp [List.isEmpty])]
    rw [ih]

theorem replaceOnceL_no_match (pat rep : List Char) :
    ∀ l, containsSeq pat l = false → replaceOnceL pat rep l = l := by
  intro l
  induction l with
  | nil => intro _; rfl
  | cons c cs ih =>
    intro h
    have h1 : isPrefixL pat (c :: cs) = false := by
      cases hx : isPrefixL pat (c :: cs) with
      | false => rfl
      | true =>
        unfold containsSeq at h
        rw [hx] at h
        simp at h
    have h2 : containsSeq pat cs = false := by
      cases hx : containsSeq pat cs with
      | false => rfl
      | true =>
        have hcc := containsSeq_cons pat c cs hx
        rw [hcc] at h
        cases h
    unfold replaceOnceL
    rw [if_neg (by simp [h1])]
    rw [ih h2]

theorem mem_of_getLast?_eq_some :
    ∀ (l : List Char) (a : Char), l.getLast? = some a → a ∈ l := by
  intro l
  induction l with
  | nil => intro a h; cases h
  | cons c cs ih =>
    intro a h
    cases cs with
    | nil =>
      have : c = a := by
        have h2 : some c = some a := h
        injection h2
      simp [this]
    | cons d ds =>
      rw [List.getLast?_cons_cons] at h
      exact List.mem_cons_of_mem _ (ih a h)

theorem mem_dropWhile_of_not (p : Char → Bool) :
    ∀ (l : List Char) (c : Char), c ∈ l → p c = false → c ∈ l.dropWhile p := by
  intro l
  induction l with
  | nil => intro c h _; simp at h
  | cons a as ih =>
    intro c hc hpc
    by_cases ha : p a = true
    · rw [List.dropWhile_cons, if_pos ha]
      rcases List.mem_cons.mp hc with rfl | hc2
      · rw [ha] at hpc; cases hpc
      · exact ih c hc2 hpc
    · rw [List.dropWhile_cons, if_neg ha]
      exact hc

theorem stripWhile_ne_nil (p : Char → Bool) (l : List Char) (c : Char)
    (hc : c ∈ l) (hpc : p c = false) : stripWhile p l ≠ [] := by
  intro hnil
  unfold stripWhile at hnil
  have h1 : (l.dropWhile p).reverse.dropWhile p = [] :=
    List.reverse_eq_nil_iff.mp hnil
  have h2 := mem_dropWhile_of_not p l c hc hpc
  have h3 : c ∈ (l.dropWhile p).reverse := List.mem_reverse.mpr h2
  have h4 := mem_dropWhile_of_not p _ c h3 hpc
  rw [h1] at h4
  simp at h4

theorem pyStrip_ne_empty (s : String) (c : Char) (hc : c ∈ s.toList)
    (hpc : isPySpace c = false) : pyStrip s ≠ "" := by
  intro h
  have h2 : stripWhile isPySpace s.toList = [] := congrArg String.toList h
  exact stripWhile_ne_nil isPySpace s.toList c hc hpc h2

/-- The `(placeholder, block)` pairs that `substBlocks` collects, starting
at index `k` (its second component, made explicit for the statements
below). -/
def pairsOf : List String → Nat → List (String × String)
  | [], _ => []
  | b :: rest, k => (codeBlockPlaceholder k, b) :: pairsOf rest (k + 1)

theorem substBlocks_snd :
    ∀ (bs : List String) (k : Nat) (text : String),
      (substBlocks bs k text).2 = pairsOf bs k := by
  intro bs
  induction bs with
  | nil => intro k text; rfl
  | cons b rest ih => intro k text; simp [substBlocks, pairsOf, ih]

theorem pairsOf_split :
    ∀ (m : Nat) (bs : List String) (k : Nat),
      pairsOf bs k = pairsOf (bs.take m) k ++ pairsOf (bs.drop m) (k + m) := by
  intro m
  induction m with
  | zero => intro bs k; simp [pairsOf]
  | succ n ih =>
    intro bs k
    cases bs with
    | nil => simp [pairsOf]
    | cons b rest =>
      simp only [List.take_succ_cons, List.drop_succ_cons, pairsOf, List.cons_append]
      rw [ih rest (k + 1)]
      have harith : k + 1 + n = k + (n + 1) := by omega
      rw [harith]

theorem pairsOf_mem :
    ∀ (bs : List String) (k : Nat) (pb : String × String),
      pb ∈ pairsOf bs k → ∃ j, k ≤ j ∧ pb.1 = codeBlockPlaceholder j := by
  intro bs
  induction bs with
  | nil => intro k pb h; simp [pairsOf] at h
  | cons b rest ih =>
    intro k pb h
    rcases List.mem_cons.mp h with rfl | h2
    · exact ⟨k, Nat.le_refl k, rfl⟩
    · obtain ⟨j, hj, hpb⟩ := ih (k + 1) pb h2
      exact ⟨j, by omega, hpb⟩

theorem drop_eq_cons_of_get? {α : Type} :
    ∀ (l : List α) (i : Nat) (a : α), l.get? i = some a →
      l.drop i = a :: l.drop (i + 1) := by
  intro l
  induction l with
  | nil => intro i a h; cases i <;> cases h
  | cons x xs ih =>
    intro i a h
    cases i with
    | zero =>
      injection h with h
      subst h
      rfl
    | succ n =>
      have := ih n a (by simpa using h)
      simpa [List.drop] using this

theorem digitChar_ne_backtick (n : Nat) : Nat.digitChar n ≠ '\x60' := by
  rcases Nat.lt_or_ge n 16 with h | h
  · interval_cases n <;> decide
  · have hstar : Nat.digitChar n = '*' := by
      unfold Nat.digitChar
      repeat rw [if_neg (by omega)]
    rw [hstar]
    decide

theorem toDigitsCore_ne_backtick :
    ∀ (fuel n : Nat) (ds : List Char), (∀ c ∈ ds, c ≠ '\x60') →
      ∀ c ∈ Nat.toDigitsCore 10 fuel n ds, c ≠ '\x60' := by
  intro fuel
  induction fuel with
  | zero => intro n ds hds c hc; exact hds c hc
  | succ f ih =>
    intro n ds hds c hc
    unfold Nat.toDigitsCore at hc
    dsimp only at hc
    split at hc
    · rcases List.mem_cons.mp hc with rfl | hc2
      · exact digitChar_ne_backtick _
      · exact hds c hc2
    · refine ih (n / 10) (Nat.digitChar (n % 10) :: ds) ?_ c hc
      intro x hx
      rcases List.mem_cons.mp hx with rfl | hx2
      · exact digitChar_ne_backtick _
      · exact hds x hx2

theorem toString_nat_ne_backtick (i : Nat) :
    ∀ c ∈ (toString i).toList, c ≠ '\x60' := by
  intro c hc
  have hrepr : (toString i).toList = Nat.toDigitsCore 10 (i + 1) i [] := rfl
  rw [hrepr] at hc
  exact toDigitsCore_ne_backtick (i + 1) i [] (by intro x hx; simp at hx) c hc

theorem backtick_not_mem_placeholder (i : Nat) :
    '\x60' ∉ (codeBlockPlaceholder i).toList := by
  intro h
  have hsplit : (codeBlockPlaceholder i).toList =
      ("__CODE_BLOCK_".toList ++ (toString i).toList) ++ "__".toList := rfl
  rw [hsplit] at h
  rcases List.mem_append.mp h with h1 | h2
  · rcases List.mem_append.mp h1 with h3 | h4
    · exact absurd h3 (by decide)
    · exact toString_nat_ne_backtick i _ h4 rfl
  · exact absurd h2 (by decide)

theorem underscore_mem_placeholder (i : Nat) :
    '_' ∈ (codeBlockPlaceholder i).toList := by
  have hsplit : (codeBlockPlaceholder i).toList =
      ("__CODE_BLOCK_".toList ++ (toString i).toList) ++ "__".toList := rfl
  rw [hsplit]
  exact List.mem_append.mpr (Or.inl (List.mem_append.mpr (Or.inl (by decide))))

theorem placeholder_isEmpty_false (i : Nat) :
    (codeBlockPlaceholder i).toList.isEmpty = false := by
  cases h : (codeBlockPlaceholder i).toList with
  | nil => exact absurd h (List.ne_nil_of_mem (underscore_mem_placeholder i))
  | cons x xs => rfl

theorem no_placeholder_of_no_underscore (B : String) (h : '_' ∉ B.toList)
    (j : Nat) : pyContains B (codeBlockPlaceholder j) = false := by
  cases hc : pyContains B (codeBlockPlaceholder j) with
  | false => rfl
  | true =>
    have hc2 : containsSeq (codeBlockPlaceholder j).toList B.toList = true := hc
    have := mem_of_containsSeq _ _ '_' hc2 (underscore_mem_placeholder j)
    exact absurd this h

theorem substBlocks_text_nonws :
    ∀ (bs : List String) (k : Nat) (text : String),
      (∃ c ∈ text.toList, isPySpace c = false) →
      ∃ c ∈ ((substBlocks bs k text).1).toList, isPySpace c = false := by
  intro bs
  induction bs with
  | nil => intro k text h; exact h
  | cons b rest ih =>
    intro k text h
    unfold substBlocks
    dsimp only
    apply ih
    by_cases hb : b.toList = []
    · have hid : pyReplaceOnce text b (codeBlockPlaceholder k) = text := by
        unfold pyReplaceOnce
        rw [hb, replaceOnceL_nil_pat]
        rfl
      rw [hid]
      exact h
    · by_cases hc : containsSeq b.toList text.toList = true
      · have hbne : b.toList.isEmpty = false := by
          cases hbt : b.toList with
          | nil => exact absurd hbt hb
          | cons x xs => rfl
        have hrep := replaceOnceL_contains_rep b.toList
          (codeBlockPlaceholder k).toList hbne text.toList hc
        have hmem := mem_of_containsSeq _ _ '_' hrep (underscore_mem_placeholder k)
        exact ⟨'_', hmem, by decide⟩
      · have hnc : containsSeq b.toList text.toList = false := by
          cases hx : containsSeq b.toList text.toList with
          | false => rfl
          | true => exact absurd hx hc
        have hid : pyReplaceOnce text b (codeBlockPlaceholder k) = text := by
          unfold pyReplaceOnce
          rw [replaceOnceL_no_match _ _ _ hnc]
          rfl
        rw [hid]
        exact h

theorem getLast?_cons_some :
    ∀ (l : List Char) (a : Char), ∃ x, (a :: l).getLast? = some x := by
  intro l
  induction l with
  | nil => intro a; exact ⟨a, rfl⟩
  | cons b bs ih =>
    intro a
    obtain ⟨x, hx⟩ := ih b
    exact ⟨x, by rw [List.getLast?_cons_cons]; exact hx⟩

theorem replaceAllL_cons (p b' : List Char) (fuel : Nat) (c : Char) (cs : List Char) :
    replaceAllL p b' (fuel + 1) (c :: cs) =
      if (!p.isEmpty && isPrefixL p (c :: cs)) = true then
        b' ++ replaceAllL p b' fuel ((c :: cs).drop p.length)
      else c :: replaceAllL p b' fuel cs := rfl

/-- Walking through a fenced block: the replacement scan copies a
nonempty suffix `w` of the block `B` verbatim — no pattern match can
begin inside it, since the pattern would then either lie inside `B`
(excluded) or contain `B`'s closing backtick (the pattern has none). -/
theorem replaceAllL_walk (p b' B : List Char)
    (hpne : p ≠ []) (hpbt : '\x60' ∉ p)
    (hBp : containsSeq p B = false)
    (hBlast : B.getLast? = some '\x60') :
    ∀ (w : List Char), w ≠ [] → (∃ t, t ++ w = B) →
      ∀ (fuel : Nat) (v : List Char), (w ++ v).length ≤ fuel →
        replaceAllL p b' fuel (w ++ v) =
          w ++ replaceAllL p b' (fuel - w.length) v := by
  intro w
  induction w with
  | nil => intro hne _ _ _ _; exact absurd rfl hne
  | cons a w' ih =>
    intro _ hsuf fuel v hlen
    obtain ⟨t, ht⟩ := hsuf
    have hlastw : (a :: w').getLast? = some '\x60' := by
      obtain ⟨x, hx⟩ := getLast?_cons_some w' a
      have hor : B.getLast? = ((a :: w').getLast?).or t.getLast? := by
        rw [← ht]
        exact List.getLast?_append
      rw [hx] at hor
      have hsome : B.getLast? = some x := hor
      rw [hBlast] at hsome
      injection hsome with hsome
      rw [hx, hsome]
    cases fuel with
    | zero => simp [List.length_cons] at hlen
    | succ f =>
      have hnomatch : (!p.isEmpty && isPrefixL p (a :: (w' ++ v))) = false := by
        cases hpm : isPrefixL p (a :: (w' ++ v)) with
        | false => simp [hpm]
        | true =>
          exfalso
          have hpm2 : isPrefixL p ((a :: w') ++ v) = true := hpm
          rcases Nat.le_total p.length (a :: w').length with hle | hge
          · have hpw : isPrefixL p (a :: w') = true :=
              isPrefixL_of_append_of_le p (a :: w') v hpm2 hle
            have hcB : containsSeq p B = true := by
              rw [← ht]
              exact containsSeq_append_left _ _ _ (containsSeq_of_isPrefixL _ _ hpw)
            rw [hBp] at hcB
            cases hcB
          · have hwp : isPrefixL (a :: w') p = true :=
              isPrefixL_take_of_le (a :: w') p v hpm2 hge
            have hbt : '\x60' ∈ (a :: w') := mem_of_getLast?_eq_some _ _ hlastw
            exact hpbt (mem_of_isPrefixL _ _ _ hwp hbt)
      have hlen2 : (w' ++ v).length ≤ f := by
        simp only [List.cons_append, List.length_cons] at hlen
        omega
      rw [show (a :: w') ++ v = a :: (w' ++ v) from rfl]
      rw [replaceAllL_cons]
      rw [if_neg (by rw [hnomatch]; exact Bool.false_ne_true)]
      have harith : f + 1 - (a :: w').length = f - w'.length := by
        simp only [List.length_cons]
        omega
      rw [harith]
      rw [show (a :: w') ++ replaceAllL p b' (f - w'.length) v
          = a :: (w' ++ replaceAllL p b' (f - w'.length) v) from rfl]
      congr 1
      by_cases hw' : w' = []
      · subst hw'
        simp
      · exact ih hw' ⟨t ++ [a], by rw [List.append_assoc]; exact ht⟩ f v hlen2

/-- A replacement pass cannot destroy an occurrence of a fenced block:
if `B` occurs in the text, the pattern has no backtick, and the pattern
does not occur inside `B`, then `B` still occurs after `replaceAllL`. -/
theorem replaceAllL_preserves_block (p b' B : List Char)
    (hpne : p ≠ []) (hpbt : '\x60' ∉ p)
    (hBp : containsSeq p B = false)
    (hBhead : B.head? = some '\x60')
    (hBlast : B.getLast? = some '\x60') :
    ∀ (fuel : Nat) (u v : List Char), (u ++ (B ++ v)).length ≤ fuel →
      containsSeq B (replaceAllL p b' fuel (u ++ (B ++ v))) = true := by
  have hBne : B ≠ [] := by
    intro hB
    rw [hB] at hBhead
    cases hBhead
  intro fuel
  induction fuel with
  | zero =>
    intro u v hlen
    exfalso
    have h0 : (u ++ (B ++ v)).length = 0 := Nat.le_zero.mp hlen
    have h1 := List.append_eq_nil.mp (List.length_eq_zero.mp h0)
    exact hBne (List.append_eq_nil.mp h1.2).1
  | succ f ih =>
    intro u v hlen
    cases u with
    | nil =>
      rw [List.nil_append]
      rw [replaceAllL_walk p b' B hpne hpbt hBp hBlast B hBne ⟨[], rfl⟩ (f + 1) v
        (by simpa using hlen)]
      exact containsSeq_of_isPrefixL _ _ (isPrefixL_append_self _ _)
    | cons a u' =>
      rw [show (a :: u') ++ (B ++ v) = a :: (u' ++ (B ++ v)) from rfl] at hlen ⊢
      by_cases hm : (!p.isEmpty && isPrefixL p (a :: (u' ++ (B ++ v)))) = true
      · have hpm : isPrefixL p (a :: (u' ++ (B ++ v))) = true := by
          have h2 := hm
          simp only [Bool.and_eq_true] at h2
          exact h2.2
        have hppos : 0 < p.length := List.length_pos.mpr hpne
        have hple : p.length ≤ (a :: u').length := by
          by_contra hgt
          push_neg at hgt
          have hle2 : (a :: u').length ≤ p.length := Nat.le_of_lt hgt
          have hpm2 : isPrefixL p ((a :: u') ++ (B ++ v)) = true := hpm
          have hdrop : isPrefixL (p.drop (a :: u').length) (B ++ v) = true :=
            isPrefixL_drop_append (a :: u') p (B ++ v) hpm2 hle2
          have hdne : p.drop (a :: u').length ≠ [] := by
            intro hnil
            have := List.drop_eq_nil_iff.mp hnil
            omega
          obtain ⟨Bt, hBcons⟩ : ∃ Bt, B = '\x60' :: Bt := by
            cases hB : B with
            | nil => rw [hB] at hBhead; cases hBhead
            | cons x xs =>
              rw [hB] at hBhead
              injection hBhead with hx
              exact ⟨xs, by rw [hx]⟩
          cases hd : p.drop (a :: u').length with
          | nil => exact hdne hd
          | cons d ds =>
            rw [hd, hBcons] at hdrop
            rw [show ('\x60' :: Bt) ++ v = '\x60' :: (Bt ++ v) from rfl] at hdrop
            simp only [isPrefixL, Bool.and_eq_true, decide_eq_true_eq] at hdrop
            have hdm : d ∈ p.drop (a :: u').length := by
              rw [hd]
              exact List.mem_cons_self _ _
            have hbp : '\x60' ∈ p := by
              have hmp := List.mem_of_mem_drop hdm
              rwa [hdrop.1] at hmp
            exact hpbt hbp
        rw [replaceAllL_cons]
        rw [if_pos hm]
        have hdrop_eq : (a :: (u' ++ (B ++ v))).drop p.length
            = (a :: u').drop p.length ++ (B ++ v) := by
          rw [show a :: (u' ++ (B ++ v)) = (a :: u') ++ (B ++ v) from rfl]
          exact drop_append_of_le (a :: u') (B ++ v) p.length hple
        rw [hdrop_eq]
        refine containsSeq_append_left _ _ _ (ih ((a :: u').drop p.length) v ?_)
        simp only [List.length_append, List.length_drop, List.length_cons] at hlen ⊢
        omega
      · rw [replaceAllL_cons]
        rw [if_neg hm]
        refine containsSeq_cons _ _ _ (ih u' v ?_)
        simp only [List.cons_append, List.length_cons, List.length_append] at hlen ⊢
        omega

theorem pairsOf_length :
    ∀ (bs : List String) (k : Nat), (pairsOf bs k).length = bs.length := by
  intro bs
  induction bs with
  | nil => intro k; rfl
  | cons b rest ih => intro k; simp [pairsOf, ih]

theorem take_len_append {α : Type} :
    ∀ (l1 l2 : List α), (l1 ++ l2).take l1.length = l1 := by
  intro l1
  induction l1 with
  | nil => intro l2; rfl
  | cons a as ih => intro l2; simp [List.take, ih]

theorem take_append_of_len {α : Type} (l1 l2 : List α) (n : Nat)
    (h : l1.length = n) : (l1 ++ l2).take n = l1 := by
  subst h
  exact take_len_append l1 l2

theorem restoreBlocks_append (P1 P2 : List (String × String)) (t : String) :
    restoreBlocks (P1 ++ P2) t = restoreBlocks P2 (restoreBlocks P1 t) := by
  unfold restoreBlocks
  rw [List.foldl_append]

theorem restoreBlocks_cons (pb : String × String)
    (rest : List (String × String)) (t : String) :
    restoreBlocks (pb :: rest) t = restoreBlocks rest (pyReplaceAll t pb.1 pb.2) := rfl

theorem placeholder_toList_ne_nil (i : Nat) : (codeBlockPlaceholder i).toList ≠ [] :=
  List.ne_nil_of_mem (underscore_mem_placeholder i)

/-- The restoration fold cannot destroy an occurrence of a fenced block
`B` as long as none of the replaced placeholders occurs inside `B`:
placeholders are nonempty and backtick-free, so every replacement pass
preserves the occurrence by `replaceAllL_preserves_block`. -/
theorem restoreBlocks_preserves_block :
    ∀ (pairs : List (String × String)) (t B : String),
      B.toList.head? = some '\x60' →
      B.toList.getLast? = some '\x60' →
      (∀ pb ∈ pairs, pb.1.toList ≠ [] ∧ '\x60' ∉ pb.1.toList ∧
        pyContains B pb.1 = false) →
      pyContains t B = true →
      pyContains (restoreBlocks pairs t) B = true := by
  intro pairs
  induction pairs with
  | nil => intro t B _ _ _ h; exact h
  | cons pb rest ih =>
    intro t B hh hl hps h
    have hpb := hps pb (List.mem_cons_self _ _)
    rw [restoreBlocks_cons]
    apply ih _ _ hh hl (fun q hq => hps q (List.mem_cons_of_mem _ hq))
    have hc : containsSeq B.toList t.toList = true := h
    obtain ⟨u, v, huv⟩ := containsSeq_decomp B.toList t.toList hc
    show containsSeq B.toList
      (replaceAllL pb.1.toList pb.2.toList t.toList.length t.toList) = true
    rw [huv, List.append_assoc]
    exact replaceAllL_preserves_block pb.1.toList pb.2.toList B.toList
      hpb.1 hpb.2.1 hpb.2.2 hh hl _ u v (Nat.le_refl _)

/-- C7: each fenced code block of the English response survives
`TranslationPipeline.from_english` byte-identically: if `B` is the `i`-th
block found by the code-block regex, no later block's placeholder
`__CODE_BLOCK_j__` (`j > i`) occurs inside `B`, and — whenever the
translator returns normally — the translator's output still contains the
placeholder `__CODE_BLOCK_i__` once the earlier placeholders (indices
below `i`) have been restored into it, then `B` occurs in the string
`from_english` returns; when the translator raises, the whole response is
returned unchanged, so `B` survives with no condition on the translator's
output. -/
theorem from_english_preserves_each_block
    (resp : String) (ctx : TranslationContext) (tr : TransOutcome)
    (i : Nat) (B : String)
    (hb : (findCodeBlocks resp).get? i = some B)
    (hclean : ∀ j, i < j → pyContains B (codeBlockPlaceholder j) = false)
    (htr : ∀ t, tr = TransOutcome.ok t →
      pyContains
        (restoreBlocks (((substBlocks (findCodeBlocks resp) 0 resp).2).take i) t)
        (codeBlockPlaceholder i) = true) :
    pyContains (from_english resp ctx tr) B = true := by
  have hdropc : (findCodeBlocks resp).drop i = B :: (findCodeBlocks resp).drop (i + 1) :=
    drop_eq_cons_of_get? _ _ _ hb
  have hmem : B ∈ findCodeBlocks resp := by
    have h1 : B ∈ (findCodeBlocks resp).drop i := by
      rw [hdropc]
      exact List.mem_cons_self _ _
    exact List.mem_of_mem_drop h1
  have hBresp : pyContains resp B = true := findCodeBlocks_mem_contains resp B hmem
  have hshape : ∃ mid, B.toList = fenceL ++ mid ++ fenceL := by
    unfold findCodeBlocks at hmem
    obtain ⟨l, hl, hBe⟩ := List.mem_map.mp hmem
    obtain ⟨mid, hmidl⟩ := findBlocksAux_shape _ _ _ hl
    refine ⟨mid, ?_⟩
    rw [← hBe]
    exact hmidl
  obtain ⟨mid, hmid⟩ := hshape
  have hBhead : B.toList.head? = some '\x60' := by
    rw [hmid]
    rfl
  have hBlastq : B.toList.getLast? = some '\x60' := by
    rw [hmid, List.getLast?_append]
    rfl
  have hbtB : '\x60' ∈ B.toList := mem_of_getLast?_eq_some _ _ hBlastq
  have hBc : containsSeq B.toList resp.toList = true := hBresp
  have hbtresp : '\x60' ∈ resp.toList := mem_of_containsSeq _ _ _ hBc hbtB
  obtain ⟨cnw, hcnw, hcnws⟩ :=
    substBlocks_text_nonws (findCodeBlocks resp) 0 resp ⟨'\x60', hbtresp, by decide⟩
  have hstripne : pyStrip (substBlocks (findCodeBlocks resp) 0 resp).1 ≠ "" :=
    pyStrip_ne_empty _ cnw hcnw hcnws
  have hi : i < (findCodeBlocks resp).length := by
    have h1 : ((findCodeBlocks resp).drop i).length = (findCodeBlocks resp).length - i :=
      List.length_drop _ _
    rw [hdropc] at h1
    simp only [List.length_cons, List.length_drop] at h1
    omega
  have hsnd : (substBlocks (findCodeBlocks resp) 0 resp).2
      = pairsOf (findCodeBlocks resp) 0 :=
    substBlocks_snd _ _ _
  have hlenp : (pairsOf ((findCodeBlocks resp).take i) 0).length = i := by
    rw [pairsOf_length, List.length_take]
    exact Nat.min_eq_left (Nat.le_of_lt hi)
  have htake_eq : (pairsOf (findCodeBlocks resp) 0).take i
      = pairsOf ((findCodeBlocks resp).take i) 0 := by
    rw [pairsOf_split i (findCodeBlocks resp) 0]
    exact take_append_of_len _ _ _ hlenp
  have hdecomp : pairsOf (findCodeBlocks resp) 0 =
      pairsOf ((findCodeBlocks resp).take i) 0 ++
        ((codeBlockPlaceholder i, B) ::
          pairsOf ((findCodeBlocks resp).drop (i + 1)) (i + 1)) := by
    rw [pairsOf_split i (findCodeBlocks resp) 0, Nat.zero_add, hdropc]
    rfl
  unfold from_english
  split
  · exact hBresp
  · split
    · exact hBresp
    · dsimp only
      split
      · next hstrip0 => exact absurd hstrip0 hstripne
      · cases tr with
        | exn => exact hBresp
        | ok t =>
          have ht := htr t rfl
          rw [hsnd, htake_eq] at ht
          show pyContains
            (restoreBlocks (substBlocks (findCodeBlocks resp) 0 resp).2 t) B = true
          rw [hsnd, hdecomp, restoreBlocks_append, restoreBlocks_cons]
          apply restoreBlocks_preserves_block _ _ _ hBhead hBlastq
          · intro pb hpb
            obtain ⟨j, hj, hpb1⟩ := pairsOf_mem _ _ _ hpb
            rw [hpb1]
            exact ⟨placeholder_toList_ne_nil j, backtick_not_mem_placeholder j,
              hclean j (Nat.lt_of_lt_of_le (Nat.lt_succ_self i) hj)⟩
          · exact pyReplaceAll_contains_rep _ _ _ (placeholder_isEmpty_false i) ht

/-- Witness for C7 at a concrete two-block input: the first block of
`"a \x60\x60\x60x\x60\x60\x60 b \x60\x60\x60y\x60\x60\x60 c"` survives a
translator that echoes both placeholders. -/
theorem from_english_preserves_each_block_witness :
    (findCodeBlocks "a \x60\x60\x60x\x60\x60\x60 b \x60\x60\x60y\x60\x60\x60 c").get? 0
        = some "\x60\x60\x60x\x60\x60\x60" ∧
    pyContains
      (from_english "a \x60\x60\x60x\x60\x60\x60 b \x60\x60\x60y\x60\x60\x60 c"
        ⟨"안녕하세요", "ko", "hi", true⟩
        (.ok "T __CODE_BLOCK_0__ M __CODE_BLOCK_1__ E"))
      "\x60\x60\x60x\x60\x60\x60" = true :=
  ⟨by decide,
    from_english_preserves_each_block _ _ _ 0 _ (by decide)
      (fun j _ => no_placeholder_of_no_underscore _ (by decide) j)
      (fun t ht => by cases ht; decide)⟩
